import Mathlib

/-!
Verification development for the Kaleidoscope front end: a shallow
embedding of the lexer (`Token.cpp` `operator>>`), the recursive-descent /
precedence-climbing parser (`Parser.cpp`), and the tree-walking code
generator (`ast::*::codegen`, `CodegenContext::get_proto`), together with
theorems settling the behavioural claims about them.

Modelling conventions:
* `double` literal values are modelled as `Rat` (`stodModel`); no claim
  observes floating-point rounding.
* C++ exceptions are modelled by a state-passing result monad `PM` whose
  results are `Except err α × state`: a throw keeps every mutation made
  before it, exactly as the in-place mutations of `Parser`/`CodegenContext`
  survive stack unwinding.
* The single `Parser::ParseError` / `CodegenException` type is refined into
  one constructor per throw site, so theorems can name which check fired.
* Recursion is made total with an explicit fuel argument; running out of
  fuel yields the artificial `.fuel` error, which no reachable claim input
  hits.
-/

namespace Kaleidoscope

/-- State-passing result monad: a computation mutates a state `σ` and either
returns a value or raises an error, keeping the mutations made so far
(C++ exception semantics over an in-place-mutated context). -/
def PM (σ ε α : Type) : Type := σ → Except ε α × σ

instance : Monad (PM σ ε) where
  pure a := fun s => (.ok a, s)
  bind x f := fun s =>
    match x s with
    | (.ok a, s₁) => f a s₁
    | (.error e, s₁) => (.error e, s₁)

/-- Raise an error, keeping the current state (a C++ `throw`). -/
def throwE (e : ε) : PM σ ε α := fun s => (.error e, s)

/-- Read the current state. -/
def getE : PM σ ε σ := fun s => (.ok s, s)

/-- Replace the current state. -/
def setE (s : σ) : PM σ ε Unit := fun _ => (.ok (), s)

/-- Mutate the current state. -/
def modE (f : σ → σ) : PM σ ε Unit := fun s => (.ok (), f s)

@[simp] theorem bind_apply (x : PM σ ε α) (f : α → PM σ ε β) (s : σ) :
    (x >>= f) s =
      match x s with
      | (.ok a, s₁) => f a s₁
      | (.error e, s₁) => (.error e, s₁) := rfl

@[simp] theorem pure_apply (a : α) (s : σ) :
    (pure a : PM σ ε α) s = (.ok a, s) := rfl

@[simp] theorem throwE_apply (e : ε) (s : σ) :
    (throwE e : PM σ ε α) s = (.error e, s) := rfl

@[simp] theorem getE_apply (s : σ) : (getE : PM σ ε σ) s = (.ok s, s) := rfl

@[simp] theorem setE_apply (s₀ s : σ) :
    (setE s₀ : PM σ ε Unit) s = (.ok (), s₀) := rfl

@[simp] theorem modE_apply (f : σ → σ) (s : σ) :
    (modE f : PM σ ε Unit) s = (.ok (), f s) := rfl

/-! ## Token model (`Token.hpp` of the current sources, `TOKENTYPES`) -/

/-- The closed token-kind enumeration of `Token.hpp`. -/
inductive TokenType : Type
  | TypeError
  | TypeEOF
  | TypeDef
  | TypeExtern
  | TypeIdentifier
  | TypeNumber
  | TypeLpar
  | TypeRpar
  | TypeOperator
  | TypeSemicolon
  | TypeComma
  | TypeIf
  | TypeThen
  | TypeElse
  | TypeFor
  | TypeIn
deriving DecidableEq

/-- A token: kind, exact source literal, and the parsed numeric value
(zero-initialised by `t = {}` for non-number tokens). -/
structure Token where
  type : TokenType
  literal : String
  number : Rat
deriving DecidableEq

/-- The token returned at end of input. -/
def eofToken : Token := ⟨.TypeEOF, "EOF", 0⟩

/-! ## Lexer (`operator>>(std::istream&, Token&)` in
`kaleidoscope/compiler/Token.cpp`) -/

/-- C `isspace` on the ASCII inputs the lexer sees. -/
def isSpaceC (c : Char) : Bool :=
  c = ' ' || c = '\t' || c = '\n' || c = '\x0b' || c = '\x0c' || c = '\r'

/-- C `isalpha` (C locale). -/
def isAlphaC (c : Char) : Bool :=
  (97 ≤ c.toNat && c.toNat ≤ 122) || (65 ≤ c.toNat && c.toNat ≤ 90)

/-- C `isdigit`. -/
def isDigitC (c : Char) : Bool := 48 ≤ c.toNat && c.toNat ≤ 57

/-- C `isalnum`. -/
def isAlnumC (c : Char) : Bool := isAlphaC c || isDigitC c

/-- Numeric value of a decimal digit character. -/
def digitVal (c : Char) : Nat := c.toNat - 48

/-- Value of a decimal digit string. -/
def natOfDigits (ds : List Char) : Nat :=
  ds.foldl (fun a c => a * 10 + digitVal c) 0

/-- Model of `stod` on the literals this lexer produces
(`digits` or `digits '.' digits`, either run possibly empty). The malformed
literal `"."`, on which `stod` would raise, is mapped to `0`; no claim
touches it. -/
def stodModel (cs : List Char) : Rat :=
  let intPart := cs.takeWhile isDigitC
  let rest := cs.dropWhile isDigitC
  let frac := (rest.drop 1).takeWhile isDigitC
  mkRat (natOfDigits intPart * 10 ^ frac.length + natOfDigits frac)
    (10 ^ frac.length)

/-- Keyword reclassification table `special_ids` of the current
`kaleidoscope/compiler/Token.cpp`: note it contains `def`, `extern`, `if`,
`then`, `else` — and nothing else. -/
def specialIds (lit : String) : Option TokenType :=
  if lit = "def" then some .TypeDef
  else if lit = "extern" then some .TypeExtern
  else if lit = "if" then some .TypeIf
  else if lit = "then" then some .TypeThen
  else if lit = "else" then some .TypeElse
  else none

/-- One step of the lexer: skip whitespace, then classify by first
character, consuming a maximal run; returns the token and the unconsumed
characters (the internal one-character pushback is folded into the
remainder). -/
def lexToken (cs : List Char) : Token × List Char :=
  let cs := cs.dropWhile isSpaceC
  match cs with
  | [] => (eofToken, [])
  | c :: rest =>
    if isAlphaC c then
      let run := cs.takeWhile isAlnumC
      let lit := String.mk run
      let ty := (specialIds lit).getD .TypeIdentifier
      (⟨ty, lit, 0⟩, cs.dropWhile isAlnumC)
    else if isDigitC c || c = '.' then
      let ds := cs.takeWhile isDigitC
      let rest₁ := cs.dropWhile isDigitC
      match rest₁ with
      | '.' :: r₂ =>
        let frac := r₂.takeWhile isDigitC
        let lit := ds ++ '.' :: frac
        (⟨.TypeNumber, String.mk lit, stodModel lit⟩, r₂.dropWhile isDigitC)
      | _ => (⟨.TypeNumber, String.mk ds, stodModel ds⟩, rest₁)
    else if c = '(' then (⟨.TypeLpar, "(", 0⟩, rest)
    else if c = ')' then (⟨.TypeRpar, ")", 0⟩, rest)
    else if c = ';' then (⟨.TypeSemicolon, ";", 0⟩, rest)
    else if c = ',' then (⟨.TypeComma, ",", 0⟩, rest)
    else
      let stop := fun ch =>
        isSpaceC ch || isAlnumC ch || ch = '.' || ch = '(' || ch = ')' || ch = ';'
      let run := c :: rest.takeWhile (fun ch => !stop ch)
      (⟨.TypeOperator, String.mk run, 0⟩, rest.dropWhile (fun ch => !stop ch))

/-- All tokens of an input, up to but not including the end-of-input token —
the `while (s >> t)` reading discipline of the tests, which stops when the
stream fails on the EOF read. -/
def lexAll : Nat → List Char → List Token
  | 0, _ => []
  | n + 1, cs =>
    let (t, rest) := lexToken cs
    if t.type = TokenType.TypeEOF then [] else t :: lexAll n rest

/-! ## AST model (`namespace ast` of `Parser.hpp` / `Parser.cpp`) -/

/-- `ast::Prototype`: function name plus ordered parameter names. -/
structure Proto where
  name : String
  params : List String
deriving DecidableEq

/-- The expression AST variants (`ast::Expr` subclasses that the parser can
nest inside an expression). -/
inductive Expr : Type
  | NumberExpr (value : Rat)
  | VariableExpr (name : String)
  | BinaryExpr (op : String) (lhs rhs : Expr)
  | CallExpr (callee : String) (args : List Expr)
  | If (condition thenExpr elseExpr : Expr)
  | For (loopVarName : String) (start stop : Expr) (step : Option Expr)
      (body : Expr)

/-- `ast::Function`: a prototype and a single body expression. -/
structure Func where
  proto : Proto
  body : Expr

/-- What `Parser::parse` can return: a function definition (also the
synthetic `__anon_expr` wrapper) or a bare prototype from `extern`. -/
inductive TopLevel : Type
  | func (f : Func)
  | ext (p : Proto)

/-! ## Parser (`Parser.cpp`) -/

/-- Parser state: the not-yet-consumed token stream, the `current` token
slot, and the `peeking` flag (`true` exactly when `current` is a live
lookahead). An exhausted stream repeatedly yields `eofToken`, matching the
failed-stream behaviour of `operator>>` leaving `current` at EOF. -/
structure PState where
  toks : List Token
  current : Token
  peeking : Bool
deriving DecidableEq

/-- `Parser::ParseError`, refined by throw site. -/
inductive PErr : Type
  | missingRparParen
  | badCallSeparator
  | missingThen
  | missingElse
  | missingForVar
  | missingForEq
  | missingForComma
  | missingIn
  | badPrimary
  | missingProtoName
  | missingProtoLpar
  | missingProtoRpar
  | fuel
deriving DecidableEq

/-- A parsing computation. -/
abbrev ParseM (α : Type) : Type := PM PState PErr α

/-- `Parser::peek`: materialise one token of lookahead on demand. -/
def peekM : ParseM Token := fun s =>
  if s.peeking then (.ok s.current, s)
  else
    match s.toks with
    | [] => (.ok eofToken, ⟨[], eofToken, true⟩)
    | t :: ts => (.ok t, ⟨ts, t, true⟩)

/-- `Parser::next`: peek, then clear the `peeking` flag. -/
def nextM : ParseM Token := do
  let t ← peekM
  modE (fun s => { s with peeking := false })
  pure t

/-- The default binary-operator precedence table of the `Parser`
constructor. -/
def binaryPrecedence : List (String × Int) :=
  [("<", 10), ("+", 20), ("-", 20), ("*", 40)]

/-- `Parser::get_token_precedence`: table rank, or `-1` for a literal that
is not a binary operator. -/
def getTokenPrecedence (lit : String) : Int :=
  match binaryPrecedence.lookup lit with
  | some p => p
  | none => -1

/-- `Parser::parse_number`. -/
def parseNumberM : ParseM Expr := do
  let t ← nextM
  pure (.NumberExpr t.number)

mutual

/-- `Parser::parse_primary`: dispatch on the lookahead kind. -/
def parsePrimary : Nat → ParseM Expr
  | 0 => throwE .fuel
  | n + 1 => do
    let t ← peekM
    match t.type with
    | .TypeIdentifier => parseIdentM n
    | .TypeNumber => parseNumberM
    | .TypeLpar => parseParenM n
    | .TypeIf => parseIfM n
    | .TypeFor => parseForM n
    | _ => throwE .badPrimary

/-- `Parser::parse_parenthesized`: note that the closing-parenthesis check
uses `next()`, consuming the offending token before throwing. -/
def parseParenM : Nat → ParseM Expr
  | 0 => throwE .fuel
  | n + 1 => do
    let _ ← nextM
    let e ← parseExpression n
    let t ← nextM
    if t.type ≠ .TypeRpar then throwE .missingRparParen
    else pure e

/-- `Parser::parse_identifier`: a variable reference, or a call with a
comma-separated argument list. -/
def parseIdentM : Nat → ParseM Expr
  | 0 => throwE .fuel
  | n + 1 => do
    let t ← nextM
    let identifier := t.literal
    let p ← peekM
    if p.type ≠ .TypeLpar then pure (.VariableExpr identifier)
    else do
      let _ ← nextM
      let p₂ ← peekM
      let args ← if p₂.type = .TypeRpar then pure ([] : List Expr)
        else parseArgsM n []
      let _ ← nextM
      pure (.CallExpr identifier args)

/-- The argument-list loop inside `Parser::parse_identifier`. -/
def parseArgsM : Nat → List Expr → ParseM (List Expr)
  | 0, _ => throwE .fuel
  | n + 1, acc => do
    let e ← parseExpression n
    let acc := acc ++ [e]
    let p ← peekM
    if p.type = .TypeRpar then pure acc
    else if p.type ≠ .TypeComma then throwE .badCallSeparator
    else do
      let _ ← nextM
      parseArgsM n acc

/-- `Parser::parse_if`. -/
def parseIfM : Nat → ParseM Expr
  | 0 => throwE .fuel
  | n + 1 => do
    let _ ← nextM
    let cond ← parseExpression n
    let p ← peekM
    if p.type ≠ .TypeThen then throwE .missingThen
    else do
      let _ ← nextM
      let thenE ← parseExpression n
      let q ← peekM
      if q.type ≠ .TypeElse then throwE .missingElse
      else do
        let _ ← nextM
        let elseE ← parseExpression n
        pure (.If cond thenE elseE)

/-- `Parser::parse_for`. -/
def parseForM : Nat → ParseM Expr
  | 0 => throwE .fuel
  | n + 1 => do
    let _ ← nextM
    let p ← peekM
    if p.type ≠ .TypeIdentifier then throwE .missingForVar
    else do
      let v ← nextM
      let q ← peekM
      if ¬(q.type = .TypeOperator ∧ q.literal = "=") then throwE .missingForEq
      else do
        let _ ← nextM
        let start ← parseExpression n
        let r ← peekM
        if r.type ≠ .TypeComma then throwE .missingForComma
        else do
          let _ ← nextM
          let stop ← parseExpression n
          let r₂ ← peekM
          let step ← if r₂.type = .TypeComma then do
              let _ ← nextM
              let e ← parseExpression n
              pure (some e)
            else pure (none : Option Expr)
          let r₃ ← peekM
          if r₃.type ≠ .TypeIn then throwE .missingIn
          else do
            let _ ← nextM
            let body ← parseExpression n
            pure (.For v.literal start stop step body)

/-- `Parser::parse_expression`. -/
def parseExpression : Nat → ParseM Expr
  | 0 => throwE .fuel
  | n + 1 => do
    let lhs ← parsePrimary n
    parseBinaryRhs n 0 lhs

/-- `Parser::parse_binary_rhs`: the precedence-climbing loop. -/
def parseBinaryRhs : Nat → Int → Expr → ParseM Expr
  | 0, _, _ => throwE .fuel
  | n + 1, lhsPrec, lhs => do
    let t ← peekM
    let opPrec := getTokenPrecedence t.literal
    if opPrec < lhsPrec then pure lhs
    else do
      let opT ← nextM
      let rhs ← parsePrimary n
      let t₂ ← peekM
      let nextPrec := getTokenPrecedence t₂.literal
      let rhs ← if opPrec < nextPrec then parseBinaryRhs n (opPrec + 1) rhs
        else pure rhs
      parseBinaryRhs n lhsPrec (.BinaryExpr opT.literal lhs rhs)

end

/-- The parameter-collecting loop of `Parser::parse_prototype`. -/
def parseParamsM : Nat → List String → ParseM (List String)
  | 0, _ => throwE .fuel
  | n + 1, acc => do
    let p ← peekM
    if p.type = .TypeIdentifier then do
      let t ← nextM
      parseParamsM n (acc ++ [t.literal])
    else pure acc

/-- `Parser::parse_prototype`. -/
def parsePrototype (n : Nat) : ParseM Proto := do
  let p ← peekM
  if p.type ≠ .TypeIdentifier then throwE .missingProtoName
  else do
    let t ← nextM
    let name := t.literal
    let q ← peekM
    if q.type ≠ .TypeLpar then throwE .missingProtoLpar
    else do
      let _ ← nextM
      let args ← parseParamsM n []
      let r ← peekM
      if r.type ≠ .TypeRpar then throwE .missingProtoRpar
      else do
        let _ ← nextM
        pure ⟨name, args⟩

/-- `Parser::parse_definition`. The C++ builds
`Function(parse_prototype(), parse_expression())`, whose argument
evaluation order is unspecified; the grammar's (and spec's) intended
prototype-then-body order is modelled. -/
def parseDefinition (n : Nat) : ParseM TopLevel := do
  let _ ← nextM
  let p ← parsePrototype n
  let e ← parseExpression n
  pure (.func ⟨p, e⟩)

/-- `Parser::parse_extern`. -/
def parseExternDecl (n : Nat) : ParseM TopLevel := do
  let _ ← nextM
  let p ← parsePrototype n
  pure (.ext p)

/-- `Parser::parse_top_level`: wrap a bare expression in the synthetic
zero-parameter `__anon_expr` function. -/
def parseTopLevelM (n : Nat) : ParseM TopLevel := do
  let e ← parseExpression n
  pure (.func ⟨⟨"__anon_expr", []⟩, e⟩)

/-- The leading-semicolon-skipping loop of `Parser::parse`. -/
def skipSemis : Nat → ParseM Unit
  | 0 => throwE .fuel
  | n + 1 => do
    let p ← peekM
    if p.type = .TypeSemicolon then do
      let _ ← nextM
      skipSemis n
    else pure ()

/-- `Parser::parse`: one top-level unit. -/
def parseUnit : Nat → ParseM TopLevel
  | 0 => throwE .fuel
  | n + 1 => do
    skipSemis n
    let p ← peekM
    match p.type with
    | .TypeDef => parseDefinition n
    | .TypeExtern => parseExternDecl n
    | _ => parseTopLevelM n

/-- Fresh parser state over a token stream (`peeking` starts `false`). -/
def pst0 (ts : List Token) : PState := ⟨ts, eofToken, false⟩

/-- The lex-then-parse pipeline on a source string. -/
def parsePipeline (src : String) : Except PErr TopLevel × PState :=
  parseUnit 64 (pst0 (lexAll src.length.succ src.toList))

/-! ## Code generator (`ast::*::codegen`, `CodegenContext` of `Parser.hpp`)

The LLVM backend is modelled by value handles (`Val`), an emission trace of
builder calls (`Event`), and a module of backend functions (`BFunc`).
Fresh ids come from a counter; `PHINode::addIncoming`, which mutates an
already-emitted instruction and is observed by no claim, is not tracked. -/

/-- A backend value handle: a floating constant (uniqued by value, emitting
nothing), a function argument, an instruction result, or a function. -/
inductive Val : Type
  | constF (value : Rat)
  | arg (func : Nat) (index : Nat)
  | instr (id : Nat)
  | funcV (id : Nat)
deriving DecidableEq

/-- The builder instructions the code generator emits. -/
inductive InstrKind : Type
  | fadd (lh rh : Val)
  | fsub (lh rh : Val)
  | fmul (lh rh : Val)
  | fcmpULT (lh rh : Val)
  | fcmpONE (lh rh : Val)
  | uiToFP (v : Val)
  | callI (callee : Nat) (args : List Val)
  | brI (dest : Nat)
  | condBr (cond : Val) (bThen bElse : Nat)
  | phiK
  | retI (v : Val)

/-- One emitted instruction: its result id, the insertion block at emission
time, and its kind. -/
structure Event where
  id : Nat
  blk : Option Nat
  kind : InstrKind

/-- A function materialised in the backend module: identity, name, the
parameter names set on it at creation, and its attached basic blocks. -/
structure BFunc where
  id : Nat
  name : String
  params : List String
  blocks : List Nat
deriving DecidableEq

/-- The generation context: backend module, prototype registry
(`CodegenContext::prototypes`, shared across units), named-value scope,
emission trace, builder insertion point, and the fresh-id counter. -/
structure CGState where
  module : List BFunc
  protos : List (String × Proto)
  named_values : String → Option Val
  trace : List Event
  insertPt : Option Nat
  counter : Nat

/-- `CodegenException`, refined by throw site (plus model artifacts: `fuel`
for the fuel-based recursion, `noInsertBlock` where the C++ would
dereference a missing insertion block). -/
inductive CGErr : Type
  | unboundVariable
  | unsupportedOperator
  | unknownFunction
  | arityMismatch
  | noInsertBlock
  | fuel
deriving DecidableEq

/-- A code-generation computation. -/
abbrev CGM (α : Type) : Type := PM CGState CGErr α

/-- `std::map::operator[]=` on the prototype registry: replace the entry
for the key, or append a new one. -/
def setA (ps : List (String × Proto)) (k : String) (p : Proto) :
    List (String × Proto) :=
  match ps with
  | [] => [(k, p)]
  | (k', p') :: rest =>
    if k' = k then (k, p) :: rest else (k', p') :: setA rest k p

/-- Registry lookup (`std::map::find`). -/
def lookupA (ps : List (String × Proto)) (k : String) : Option Proto :=
  match ps with
  | [] => none
  | (k', p') :: rest => if k' = k then some p' else lookupA rest k

/-- `try { ... } catch (CodegenException c) { ... }`. -/
def catchWith (x : CGM α) (h : CGErr → CGM α) : CGM α := fun s =>
  match x s with
  | (.ok a, s') => (.ok a, s')
  | (.error e, s') => h e s'

@[simp] theorem catchWith_apply (x : CGM α) (h : CGErr → CGM α) (s : CGState) :
    catchWith x h s =
      match x s with
      | (.ok a, s') => (.ok a, s')
      | (.error e, s') => h e s' := rfl

/-- Emit one builder instruction at the current insertion point, returning
its result value. -/
def emitI (k : InstrKind) : CGM Val := fun s =>
  (.ok (.instr s.counter),
    { s with
      counter := s.counter + 1
      trace := s.trace ++ [⟨s.counter, s.insertPt, k⟩] })

/-- `llvm::BasicBlock::Create` without a parent: a fresh block id. -/
def freshBlock : CGM Nat := fun s =>
  (.ok s.counter, { s with counter := s.counter + 1 })

/-- `llvm::Function::insert(end, blk)`: attach a block at the end of a
function's block list. -/
def attachBlock (fid blk : Nat) : CGM Unit :=
  modE fun s =>
    { s with
      module := s.module.map fun g =>
        if g.id = fid then { g with blocks := g.blocks ++ [blk] } else g }

/-- `builder->SetInsertPoint`. -/
def setInsert (blk : Nat) : CGM Unit :=
  modE fun s => { s with insertPt := some blk }

/-- `builder->GetInsertBlock()->getParent()`: the function owning the
current insertion block. -/
def currentParent : CGM Nat := fun s =>
  match s.insertPt with
  | none => (.error .noInsertBlock, s)
  | some b =>
    match s.module.find? (fun g => b ∈ g.blocks) with
    | none => (.error .noInsertBlock, s)
    | some g => (.ok g.id, s)

/-- `ast::Prototype::codegen`: create a fresh backend function declaration
named after the prototype, with one double parameter per name. -/
def cgProto (p : Proto) : CGM Nat := fun s =>
  (.ok s.counter,
    { s with
      counter := s.counter + 1
      module := s.module ++ [⟨s.counter, p.name, p.params, []⟩] })

/-- `CodegenContext::get_proto`: the materialised function of that name if
the module has one, else re-declare from the prototype registry, else
`nullptr`. -/
def get_proto (name : String) : CGM (Option Nat) := fun s =>
  match s.module.find? (fun g => g.name = name) with
  | some f => (.ok (some f.id), s)
  | none =>
    match lookupA s.protos name with
    | some p => (cgProto p >>= fun fid => pure (some fid)) s
    | none => (.ok none, s)

/-- The `std::swap(shadow, ctx.named_values[loop_var_name])` of
`ast::For::codegen`: return the outer binding (the default-constructed
`nullptr` of `operator[]` on an absent key is `none`) and bind the name to
the loop value. -/
def swapInLoopVar (v : String) (val : Val) : CGM (Option Val) := fun s =>
  (.ok (s.named_values v),
    { s with
      named_values := fun k => if k = v then some val else s.named_values k })

/-- The unshadowing epilogue of `ast::For::codegen`: restore the saved
outer binding, or erase the name if there was none. -/
def restoreLoopVar (v : String) (shadow : Option Val) : CGM Unit :=
  modE fun s =>
    { s with
      named_values := fun k => if k = v then shadow else s.named_values k }

/-- Bind each backend parameter name to its argument value, later
duplicates overriding earlier ones, over a cleared scope — the
`named_values` reset of `ast::Function::codegen`. -/
def bindParams (bf : BFunc) : String → Option Val :=
  bf.params.enum.foldl
    (fun m pr => fun k => if k = pr.2 then some (.arg bf.id pr.1) else m k)
    (fun _ => none)

mutual

/-- `ast::Expr::codegen` for the expression variants, dispatching as the
virtual calls do. -/
def cgExpr : Nat → Expr → CGM Val
  | 0, _ => throwE .fuel
  | n + 1, e =>
    match e with
    | .NumberExpr v => pure (.constF v)
    | .VariableExpr name => do
      let s ← getE
      match s.named_values name with
      | none => throwE .unboundVariable
      | some v => pure v
    | .BinaryExpr op l r => do
      let lh ← cgExpr n l
      let rh ← cgExpr n r
      if op = "+" then emitI (.fadd lh rh)
      else if op = "-" then emitI (.fsub lh rh)
      else if op = "*" then emitI (.fmul lh rh)
      else if op = "<" then do
        let c ← emitI (.fcmpULT lh rh)
        emitI (.uiToFP c)
      else throwE .unsupportedOperator
    | .CallExpr callee args => do
      let ofid ← get_proto callee
      match ofid with
      | none => throwE .unknownFunction
      | some fid => do
        let s ← getE
        match s.module.find? (fun g => g.id = fid) with
        | none => throwE .unknownFunction
        | some f =>
          if f.params.length ≠ args.length then throwE .arityMismatch
          else do
            let vs ← cgArgs n args
            emitI (.callI fid vs)
    | .If cond thenE elseE => do
      let fn ← currentParent
      let thenB ← freshBlock
      let elseB ← freshBlock
      let mergeB ← freshBlock
      let cv ← cgExpr n cond
      let cb ← emitI (.fcmpONE cv (.constF 0))
      let _ ← emitI (.condBr cb thenB elseB)
      attachBlock fn thenB
      setInsert thenB
      let _ ← cgExpr n thenE
      let _ ← emitI (.brI mergeB)
      attachBlock fn elseB
      setInsert elseB
      let _ ← cgExpr n elseE
      let _ ← emitI (.brI mergeB)
      attachBlock fn mergeB
      setInsert mergeB
      emitI .phiK
    | .For v start stop step body => do
      let fn ← currentParent
      let loopB ← freshBlock
      let afterB ← freshBlock
      let _ ← cgExpr n start
      let _ ← emitI (.brI loopB)
      attachBlock fn loopB
      setInsert loopB
      let loopVar ← emitI .phiK
      let shadow ← swapInLoopVar v loopVar
      let _ ← cgExpr n body
      let stepV ← match step with
        | some se => cgExpr n se
        | none => pure (Val.constF 1)
      let _ ← emitI (.fadd loopVar stepV)
      let endV ← cgExpr n stop
      let endC ← emitI (.fcmpONE endV (.constF 0))
      let _ ← emitI (.condBr endC loopB afterB)
      attachBlock fn afterB
      setInsert afterB
      restoreLoopVar v shadow
      pure (.constF 0)

/-- The left-to-right argument-generation loop of `ast::CallExpr::codegen`. -/
def cgArgs : Nat → List Expr → CGM (List Val)
  | 0, _ => throwE .fuel
  | _ + 1, [] => pure []
  | n + 1, a :: rest => do
    let v ← cgExpr n a
    let vs ← cgArgs n rest
    pure (v :: vs)

end

/-- `ast::Function::codegen`: register the prototype, materialise or reuse
the declaration, open an entry block, reset the scope to the function's
parameters, generate the body — erasing the function and rethrowing if that
fails — then emit the return. (`verifyFunction`'s result is ignored by the
source.) -/
def cgFunction (n : Nat) (f : Func) : CGM Val := do
  modE (fun s => { s with protos := setA s.protos f.proto.name f.proto })
  let ofid ← get_proto f.proto.name
  let fid ← match ofid with
    | some fid => pure fid
    | none => cgProto f.proto
  let blk ← freshBlock
  attachBlock fid blk
  setInsert blk
  modE (fun s =>
    let bf := (s.module.find? (fun g => g.id = fid)).getD
      ⟨fid, f.proto.name, f.proto.params, []⟩
    { s with named_values := bindParams bf })
  catchWith
    (do
      let ret ← cgExpr n f.body
      let _ ← emitI (.retI ret)
      pure (Val.funcV fid))
    (fun e => do
      modE (fun s =>
        { s with module := s.module.filter (fun g => g.id ≠ fid) })
      throwE e)

/-- Code generation of one parsed unit (the virtual `codegen` dispatch on
the parse result). -/
def cgTopLevel (n : Nat) : TopLevel → CGM Val
  | .func f => cgFunction n f
  | .ext p => do
    let fid ← cgProto p
    pure (.funcV fid)

/-- The empty generation context of a fresh unit over a given prototype
registry (each REPL iteration constructs a new `CodegenContext` sharing the
session's registry). -/
def freshUnit (ps : List (String × Proto)) : CGState :=
  ⟨[], ps, fun _ => none, [], none, 0⟩

/-- The very first unit's context: empty registry. -/
def initSt : CGState := freshUnit []

/-! ## Generation invariants -/

/-- Identity-and-name view of a module. -/
def pairsOf (m : List BFunc) : List (Nat × String) :=
  m.map fun g => (g.id, g.name)

/-- The function names of a module. -/
def namesOf (m : List BFunc) : List String := m.map BFunc.name

/-- Registry well-formedness: every prototype is registered under its own
name (all writes are `(*prototypes)[proto->get_name()] = proto`). -/
def protosWF (ps : List (String × Proto)) : Prop :=
  ∀ kp ∈ ps, (kp.2 : Proto).name = kp.1

/-- How one generation step may change the context: the registry is
untouched, the module's functions are preserved (up to block attachment)
and only appended to, name-uniqueness is preserved (given a well-formed
registry), and the trace only grows. -/
def Ext (s s' : CGState) : Prop :=
  s'.protos = s.protos ∧
  (∃ ds, pairsOf s'.module = pairsOf s.module ++ ds) ∧
  (protosWF s.protos → (namesOf s.module).Nodup → (namesOf s'.module).Nodup) ∧
  (∃ tr, s'.trace = s.trace ++ tr)

theorem Ext.refl (s : CGState) : Ext s s :=
  ⟨rfl, ⟨[], by simp⟩, fun _ h => h, ⟨[], by simp⟩⟩

theorem Ext.trans {s₁ s₂ s₃ : CGState} (h₁ : Ext s₁ s₂) (h₂ : Ext s₂ s₃) :
    Ext s₁ s₃ := by
  obtain ⟨hp₁, ⟨ds₁, hm₁⟩, hn₁, ⟨tr₁, ht₁⟩⟩ := h₁
  obtain ⟨hp₂, ⟨ds₂, hm₂⟩, hn₂, ⟨tr₂, ht₂⟩⟩ := h₂
  refine ⟨hp₂.trans hp₁, ⟨ds₁ ++ ds₂, ?_⟩, ?_, ⟨tr₁ ++ tr₂, ?_⟩⟩
  · rw [hm₂, hm₁, List.append_assoc]
  · intro hw hd
    exact hn₂ (hp₁ ▸ hw) (hn₁ hw hd)
  · rw [ht₂, ht₁, List.append_assoc]

/-- The names of a module are the second components of its id/name pairs. -/
theorem namesOf_eq_pairs (m : List BFunc) :
    namesOf m = (pairsOf m).map Prod.snd := by
  simp [namesOf, pairsOf, List.map_map, Function.comp]

/-- Attaching a block changes no function's identity or name. -/
theorem pairsOf_attach (m : List BFunc) (fid blk : Nat) :
    pairsOf (m.map fun g =>
      if g.id = fid then { g with blocks := g.blocks ++ [blk] } else g) =
      pairsOf m := by
  simp only [pairsOf, List.map_map]
  refine List.map_congr_left fun g _ => ?_
  by_cases hg : g.id = fid <;> simp [Function.comp, hg]

theorem emitI_ext (k : InstrKind) (s : CGState) (x : Except CGErr Val)
    (s' : CGState) (h : emitI k s = (x, s')) :
    Ext s s' ∧ s'.named_values = s.named_values := by
  cases h
  exact ⟨⟨rfl, ⟨[], by simp⟩, fun _ h => h, ⟨_, rfl⟩⟩, rfl⟩

theorem freshBlock_ext (s : CGState) (x : Except CGErr Nat) (s' : CGState)
    (h : freshBlock s = (x, s')) :
    Ext s s' ∧ s'.named_values = s.named_values := by
  cases h
  exact ⟨⟨rfl, ⟨[], by simp⟩, fun _ h => h, ⟨[], by simp⟩⟩, rfl⟩

theorem attachBlock_ext (fid blk : Nat) (s : CGState) (x : Except CGErr Unit)
    (s' : CGState) (h : attachBlock fid blk s = (x, s')) :
    Ext s s' ∧ s'.named_values = s.named_values := by
  cases h
  refine ⟨⟨rfl, ⟨[], by simp [pairsOf_attach]⟩, ?_, ⟨[], by simp⟩⟩, rfl⟩
  intro _ hd
  rw [namesOf_eq_pairs]
  show (List.map Prod.snd (pairsOf (List.map _ s.module))).Nodup
  rw [pairsOf_attach, ← namesOf_eq_pairs]
  exact hd

theorem setInsert_ext (blk : Nat) (s : CGState) (x : Except CGErr Unit)
    (s' : CGState) (h : setInsert blk s = (x, s')) :
    Ext s s' ∧ s'.named_values = s.named_values := by
  cases h
  exact ⟨⟨rfl, ⟨[], by simp⟩, fun _ h => h, ⟨[], by simp⟩⟩, rfl⟩

theorem currentParent_ext (s : CGState) (x : Except CGErr Nat) (s' : CGState)
    (h : currentParent s = (x, s')) :
    s' = s := by
  unfold currentParent at h
  split at h
  · cases h; rfl
  · split at h <;> (cases h; rfl)

theorem cgProto_ext (p : Proto) (s : CGState) (x : Except CGErr Nat)
    (s' : CGState) (h : cgProto p s = (x, s')) :
    x = .ok s.counter ∧
      s'.module = s.module ++ [⟨s.counter, p.name, p.params, []⟩] ∧
      s'.protos = s.protos ∧ s'.trace = s.trace ∧
      s'.named_values = s.named_values := by
  cases h
  exact ⟨rfl, rfl, rfl, rfl, rfl⟩

/-- `lookupA` only returns entries of the list. -/
theorem lookupA_mem (ps : List (String × Proto)) (k : String) (p : Proto)
    (h : lookupA ps k = some p) : (k, p) ∈ ps := by
  induction ps with
  | nil => simp [lookupA] at h
  | cons hd tl ih =>
    unfold lookupA at h
    split at h
    · rename_i hk
      cases h
      rw [← hk]
      exact List.mem_cons_self _ _
    · exact List.mem_cons_of_mem _ (ih h)

/-- `find?` failure on the name means the name is not in the module. -/
theorem find_name_none (m : List BFunc) (name : String)
    (h : m.find? (fun g => g.name = name) = none) : name ∉ namesOf m := by
  intro hmem
  rw [namesOf] at hmem
  obtain ⟨g, hg, hgname⟩ := List.mem_map.mp hmem
  have := List.find?_eq_none.mp h g hg
  simp [hgname] at this

theorem get_proto_ext (name : String) (s : CGState)
    (x : Except CGErr (Option Nat)) (s' : CGState)
    (h : get_proto name s = (x, s')) :
    (∃ o, x = .ok o) ∧ Ext s s' ∧ s'.named_values = s.named_values := by
  unfold get_proto at h
  split at h
  · cases h
    exact ⟨⟨_, rfl⟩, Ext.refl s, rfl⟩
  · rename_i hfind
    split at h
    · rename_i p hlook
      simp only [bind_apply, cgProto, pure_apply] at h
      cases h
      refine ⟨⟨_, rfl⟩, ⟨rfl, ⟨[(s.counter, p.name)], by simp [pairsOf]⟩, ?_,
        ⟨[], by simp⟩⟩, rfl⟩
      intro hw hd
      have hpname : p.name = name := hw (name, p) (lookupA_mem _ _ _ hlook)
      have hnot : name ∉ namesOf s.module := find_name_none _ _ hfind
      simp only [namesOf, List.map_append, List.map_cons, List.map_nil] at *
      rw [List.nodup_append]
      refine ⟨hd, List.nodup_singleton _, ?_⟩
      intro a ha hb
      simp only [List.mem_singleton] at hb
      subst hb
      rw [hpname] at ha
      exact hnot ha
    · cases h
      exact ⟨⟨_, rfl⟩, Ext.refl s, rfl⟩

/-- A resolved callee is present in the resulting module under the resolved
name (given a well-formed registry). -/
theorem get_proto_mem (name : String) (s : CGState) (fid : Nat) (s' : CGState)
    (h : get_proto name s = (.ok (some fid), s'))
    (hw : protosWF s.protos) : (fid, name) ∈ pairsOf s'.module := by
  unfold get_proto at h
  split at h
  · rename_i f hfind
    cases h
    have hname : f.name = name := by
      have := List.find?_some hfind
      simpa using this
    have hmem : (f.id, f.name) ∈ pairsOf s.module :=
      List.mem_map_of_mem _ (List.mem_of_find?_eq_some hfind)
    rwa [hname] at hmem
  · split at h
    · rename_i p hlook
      simp only [bind_apply, cgProto, pure_apply] at h
      cases h
      have hpname : p.name = name := hw (name, p) (lookupA_mem _ _ _ hlook)
      simp [pairsOf, hpname]
    · simp at h

/-- Case analysis of a bound computation. -/
theorem bind_split (x : PM σ ε α) (f : α → PM σ ε β) (s s' : σ)
    (r : Except ε β) (h : (x >>= f) s = (r, s')) :
    (∃ e, x s = (.error e, s') ∧ r = .error e) ∨
      (∃ a s₁, x s = (.ok a, s₁) ∧ f a s₁ = (r, s')) := by
  rw [bind_apply] at h
  rcases hx : x s with ⟨xr, s₁⟩
  rw [hx] at h
  cases xr with
  | ok a => exact .inr ⟨a, s₁, rfl, h⟩
  | error e =>
    rw [Prod.mk.injEq] at h
    obtain ⟨h₁, h₂⟩ := h
    subst h₁
    subst h₂
    exact .inl ⟨e, rfl, rfl⟩

/-- A successful bound computation succeeds in both halves. -/
theorem bind_ok (x : PM σ ε α) (f : α → PM σ ε β) (s s' : σ) (b : β)
    (h : (x >>= f) s = (.ok b, s')) :
    ∃ a s₁, x s = (.ok a, s₁) ∧ f a s₁ = (.ok b, s') := by
  rcases bind_split x f s s' _ h with ⟨e, _, he⟩ | hok
  · cases he
  · exact hok

/-- The computation only changes the context within `Ext`. -/
def ExtP (m : CGM α) : Prop :=
  ∀ s x s', m s = (x, s') → Ext s s'

/-- On success, the computation leaves the named-value scope unchanged. -/
def NvOkP (m : CGM α) : Prop :=
  ∀ s r s', m s = (.ok r, s') → s'.named_values = s.named_values

theorem extP_bind {x : CGM α} {f : α → CGM β} (hx : ExtP x)
    (hf : ∀ a, ExtP (f a)) : ExtP (x >>= f) := by
  intro s r s' h
  rcases bind_split x f s s' r h with ⟨e, hx₁, _⟩ | ⟨a, s₁, hx₁, h₂⟩
  · exact hx _ _ _ hx₁
  · exact (hx _ _ _ hx₁).trans (hf a _ _ _ h₂)

theorem extP_pure (a : α) : ExtP (pure a : CGM α) := by
  intro s r s' h
  cases h
  exact Ext.refl s

theorem extP_throw (e : CGErr) : ExtP (throwE e : CGM α) := by
  intro s r s' h
  cases h
  exact Ext.refl s

theorem extP_ite (c : Prop) [Decidable c] {m₁ m₂ : CGM α} (h₁ : ExtP m₁)
    (h₂ : ExtP m₂) : ExtP (if c then m₁ else m₂) := by
  by_cases hc : c
  · simpa [hc] using h₁
  · simpa [hc] using h₂

theorem extP_get : ExtP (getE : CGM CGState) := by
  intro s r s' h
  cases h
  exact Ext.refl s

theorem extP_emitI (k : InstrKind) : ExtP (emitI k) := fun s x s' h =>
  (emitI_ext k s x s' h).1

theorem extP_freshBlock : ExtP freshBlock := fun s x s' h =>
  (freshBlock_ext s x s' h).1

theorem extP_attachBlock (fid blk : Nat) : ExtP (attachBlock fid blk) :=
  fun s x s' h => (attachBlock_ext fid blk s x s' h).1

theorem extP_setInsert (blk : Nat) : ExtP (setInsert blk) :=
  fun s x s' h => (setInsert_ext blk s x s' h).1

theorem extP_currentParent : ExtP currentParent := by
  intro s x s' h
  rw [currentParent_ext s x s' h]
  exact Ext.refl s

theorem extP_get_proto (name : String) : ExtP (get_proto name) :=
  fun s x s' h => (get_proto_ext name s x s' h).2.1

/-- Overwriting only the named-value scope is within `Ext`. -/
theorem ext_set_nv (s : CGState) (nv : String → Option Val) :
    Ext s { s with named_values := nv } :=
  ⟨rfl, ⟨[], by simp⟩, fun _ h => h, ⟨[], by simp⟩⟩

/-- Generating any expression only changes the context within `Ext` —
registry untouched, module append-only up to block attachment,
name-uniqueness kept, trace append-only. -/
theorem cgExpr_extP : ∀ n, (∀ e, ExtP (cgExpr n e)) ∧
    (∀ as, ExtP (cgArgs n as)) := by
  intro n
  induction n with
  | zero => exact ⟨fun _ => extP_throw _, fun _ => extP_throw _⟩
  | succ n ih =>
    obtain ⟨ihE, ihA⟩ := ih
    constructor
    · intro e
      show ExtP (cgExpr (n + 1) e)
      cases e with
      | NumberExpr v => exact extP_pure _
      | VariableExpr name =>
        refine extP_bind extP_get fun s => ?_
        cases s.named_values name with
        | none => exact extP_throw _
        | some v => exact extP_pure _
      | BinaryExpr op l r =>
        refine extP_bind (ihE l) fun lh => extP_bind (ihE r) fun rh => ?_
        refine extP_ite _ (extP_emitI _) ?_
        refine extP_ite _ (extP_emitI _) ?_
        refine extP_ite _ (extP_emitI _) ?_
        refine extP_ite _ (extP_bind (extP_emitI _) fun c =>
          extP_emitI _) (extP_throw _)
      | CallExpr callee args =>
        refine extP_bind (extP_get_proto callee) fun ofid => ?_
        cases ofid with
        | none => exact extP_throw _
        | some fid =>
          refine extP_bind extP_get fun s => ?_
          cases s.module.find? (fun g => g.id = fid) with
          | none => exact extP_throw _
          | some f =>
            refine extP_ite _ (extP_throw _) ?_
            exact extP_bind (ihA args) fun vs => extP_emitI _
      | If cond thenE elseE =>
        refine extP_bind extP_currentParent fun fn => ?_
        refine extP_bind extP_freshBlock fun thenB => ?_
        refine extP_bind extP_freshBlock fun elseB => ?_
        refine extP_bind extP_freshBlock fun mergeB => ?_
        refine extP_bind (ihE cond) fun cv => ?_
        refine extP_bind (extP_emitI _) fun cb => ?_
        refine extP_bind (extP_emitI _) fun _ => ?_
        refine extP_bind (extP_attachBlock _ _) fun _ => ?_
        refine extP_bind (extP_setInsert _) fun _ => ?_
        refine extP_bind (ihE thenE) fun _ => ?_
        refine extP_bind (extP_emitI _) fun _ => ?_
        refine extP_bind (extP_attachBlock _ _) fun _ => ?_
        refine extP_bind (extP_setInsert _) fun _ => ?_
        refine extP_bind (ihE elseE) fun _ => ?_
        refine extP_bind (extP_emitI _) fun _ => ?_
        refine extP_bind (extP_attachBlock _ _) fun _ => ?_
        refine extP_bind (extP_setInsert _) fun _ => ?_
        exact extP_emitI _
      | For v start stop step body =>
        have hswap : ∀ val, ExtP (swapInLoopVar v val) := fun val s₀ x s' h => by
          cases h; exact ext_set_nv s₀ _
        have hrestore : ∀ sh, ExtP (restoreLoopVar v sh) := fun sh s₀ x s' h => by
          cases h; exact ext_set_nv s₀ _
        cases step with
        | none =>
          refine extP_bind extP_currentParent fun fn => ?_
          refine extP_bind extP_freshBlock fun loopB => ?_
          refine extP_bind extP_freshBlock fun afterB => ?_
          refine extP_bind (ihE start) fun _ => ?_
          refine extP_bind (extP_emitI _) fun _ => ?_
          refine extP_bind (extP_attachBlock _ _) fun _ => ?_
          refine extP_bind (extP_setInsert _) fun _ => ?_
          refine extP_bind (extP_emitI _) fun loopVar => ?_
          refine extP_bind (hswap _) fun shadow => ?_
          refine extP_bind (ihE body) fun _ => ?_
          refine extP_bind (extP_pure _) fun stepV => ?_
          refine extP_bind (extP_emitI _) fun _ => ?_
          refine extP_bind (ihE stop) fun endV => ?_
          refine extP_bind (extP_emitI _) fun endC => ?_
          refine extP_bind (extP_emitI _) fun _ => ?_
          refine extP_bind (extP_attachBlock _ _) fun _ => ?_
          refine extP_bind (extP_setInsert _) fun _ => ?_
          exact extP_bind (hrestore _) fun _ => extP_pure _
        | some se =>
          refine extP_bind extP_currentParent fun fn => ?_
          refine extP_bind extP_freshBlock fun loopB => ?_
          refine extP_bind extP_freshBlock fun afterB => ?_
          refine extP_bind (ihE start) fun _ => ?_
          refine extP_bind (extP_emitI _) fun _ => ?_
          refine extP_bind (extP_attachBlock _ _) fun _ => ?_
          refine extP_bind (extP_setInsert _) fun _ => ?_
          refine extP_bind (extP_emitI _) fun loopVar => ?_
          refine extP_bind (hswap _) fun shadow => ?_
          refine extP_bind (ihE body) fun _ => ?_
          refine extP_bind (ihE se) fun stepV => ?_
          refine extP_bind (extP_emitI _) fun _ => ?_
          refine extP_bind (ihE stop) fun endV => ?_
          refine extP_bind (extP_emitI _) fun endC => ?_
          refine extP_bind (extP_emitI _) fun _ => ?_
          refine extP_bind (extP_attachBlock _ _) fun _ => ?_
          refine extP_bind (extP_setInsert _) fun _ => ?_
          exact extP_bind (hrestore _) fun _ => extP_pure _
    · intro as
      show ExtP (cgArgs (n + 1) as)
      cases as with
      | nil => exact extP_pure _
      | cons a rest =>
        exact extP_bind (ihE a) fun va =>
          extP_bind (ihA rest) fun vs => extP_pure _

theorem nvOk_bind {x : CGM α} {f : α → CGM β} (hx : NvOkP x)
    (hf : ∀ a, NvOkP (f a)) : NvOkP (x >>= f) := by
  intro s r s' h
  obtain ⟨a, s₁, h₁, h₂⟩ := bind_ok x f s s' r h
  exact (hf a _ _ _ h₂).trans (hx _ _ _ h₁)

theorem nvOk_pure (a : α) : NvOkP (pure a : CGM α) := by
  intro s r s' h
  cases h
  rfl

theorem nvOk_throw (e : CGErr) : NvOkP (throwE e : CGM α) := by
  intro s r s' h
  simp only [throwE_apply, Prod.mk.injEq] at h
  exact absurd h.1 (by simp)

theorem nvOk_ite (c : Prop) [Decidable c] {m₁ m₂ : CGM α} (h₁ : NvOkP m₁)
    (h₂ : NvOkP m₂) : NvOkP (if c then m₁ else m₂) := by
  by_cases hc : c
  · simpa [hc] using h₁
  · simpa [hc] using h₂

theorem nvOk_get : NvOkP (getE : CGM CGState) := by
  intro s r s' h
  cases h
  rfl

theorem nvOk_emitI (k : InstrKind) : NvOkP (emitI k) :=
  fun s r s' h => (emitI_ext k s _ s' h).2

theorem nvOk_freshBlock : NvOkP freshBlock :=
  fun s r s' h => (freshBlock_ext s _ s' h).2

theorem nvOk_attachBlock (fid blk : Nat) : NvOkP (attachBlock fid blk) :=
  fun s r s' h => (attachBlock_ext fid blk s _ s' h).2

theorem nvOk_setInsert (blk : Nat) : NvOkP (setInsert blk) :=
  fun s r s' h => (setInsert_ext blk s _ s' h).2

theorem nvOk_currentParent : NvOkP currentParent := by
  intro s r s' h
  rw [currentParent_ext s _ s' h]

theorem nvOk_get_proto (name : String) : NvOkP (get_proto name) :=
  fun s r s' h => (get_proto_ext name s _ s' h).2.2

/-- The loop-variable shadow/restore sandwich of `ast::For::codegen`
restores the named-value scope when every part succeeds, whatever the
middle computations do to the rest of the context. -/
theorem nvOk_forShape (v : String) (mstart mbody mstep mstop : CGM Val)
    (hstart : NvOkP mstart) (hbody : NvOkP mbody) (hstep : NvOkP mstep)
    (hstop : NvOkP mstop) (loopBr : Nat → InstrKind) :
    NvOkP (do
      let fn ← currentParent
      let loopB ← freshBlock
      let afterB ← freshBlock
      let _ ← mstart
      let _ ← emitI (loopBr loopB)
      attachBlock fn loopB
      setInsert loopB
      let loopVar ← emitI .phiK
      let shadow ← swapInLoopVar v loopVar
      let _ ← mbody
      let stepV ← mstep
      let _ ← emitI (.fadd loopVar stepV)
      let endV ← mstop
      let endC ← emitI (.fcmpONE endV (.constF 0))
      let _ ← emitI (.condBr endC loopB afterB)
      attachBlock fn afterB
      setInsert afterB
      restoreLoopVar v shadow
      pure (Val.constF 0)) := by
  intro s r s' h
  obtain ⟨fn, t₁, e₁, h⟩ := bind_ok _ _ _ _ _ h
  have n₁ : t₁.named_values = s.named_values := by
    rw [currentParent_ext _ _ _ e₁]
  obtain ⟨loopB, t₂, e₂, h⟩ := bind_ok _ _ _ _ _ h
  have n₂ := (freshBlock_ext _ _ _ e₂).2
  obtain ⟨afterB, t₃, e₃, h⟩ := bind_ok _ _ _ _ _ h
  have n₃ := (freshBlock_ext _ _ _ e₃).2
  obtain ⟨sv₀, t₄, e₄, h⟩ := bind_ok _ _ _ _ _ h
  have n₄ := hstart _ _ _ e₄
  obtain ⟨u₅, t₅, e₅, h⟩ := bind_ok _ _ _ _ _ h
  have n₅ := (emitI_ext _ _ _ _ e₅).2
  obtain ⟨u₆, t₆, e₆, h⟩ := bind_ok _ _ _ _ _ h
  have n₆ := (attachBlock_ext _ _ _ _ _ e₆).2
  obtain ⟨u₇, t₇, e₇, h⟩ := bind_ok _ _ _ _ _ h
  have n₇ := (setInsert_ext _ _ _ _ e₇).2
  obtain ⟨loopVar, t₈, e₈, h⟩ := bind_ok _ _ _ _ _ h
  have n₈ := (emitI_ext _ _ _ _ e₈).2
  obtain ⟨shadow, t₉, e₉, h⟩ := bind_ok _ _ _ _ _ h
  have hsh₁ : shadow = t₈.named_values v := by cases e₉; rfl
  have hsh₂ : t₉.named_values =
      fun k => if k = v then some loopVar else t₈.named_values k := by
    cases e₉; rfl
  obtain ⟨u₁₀, t₁₀, e₁₀, h⟩ := bind_ok _ _ _ _ _ h
  have n₁₀ := hbody _ _ _ e₁₀
  obtain ⟨stepV, t₁₁, e₁₁, h⟩ := bind_ok _ _ _ _ _ h
  have n₁₁ := hstep _ _ _ e₁₁
  obtain ⟨u₁₂, t₁₂, e₁₂, h⟩ := bind_ok _ _ _ _ _ h
  have n₁₂ := (emitI_ext _ _ _ _ e₁₂).2
  obtain ⟨endV, t₁₃, e₁₃, h⟩ := bind_ok _ _ _ _ _ h
  have n₁₃ := hstop _ _ _ e₁₃
  obtain ⟨endC, t₁₄, e₁₄, h⟩ := bind_ok _ _ _ _ _ h
  have n₁₄ := (emitI_ext _ _ _ _ e₁₄).2
  obtain ⟨u₁₅, t₁₅, e₁₅, h⟩ := bind_ok _ _ _ _ _ h
  have n₁₅ := (emitI_ext _ _ _ _ e₁₅).2
  obtain ⟨u₁₆, t₁₆, e₁₆, h⟩ := bind_ok _ _ _ _ _ h
  have n₁₆ := (attachBlock_ext _ _ _ _ _ e₁₆).2
  obtain ⟨u₁₇, t₁₇, e₁₇, h⟩ := bind_ok _ _ _ _ _ h
  have n₁₇ := (setInsert_ext _ _ _ _ e₁₇).2
  obtain ⟨u₁₈, t₁₈, e₁₈, h⟩ := bind_ok _ _ _ _ _ h
  have hre : t₁₈.named_values =
      fun k => if k = v then shadow else t₁₇.named_values k := by
    cases e₁₈; rfl
  have hfin : s' = t₁₈ := by cases h; rfl
  subst hfin
  funext k
  rw [hre]
  by_cases hk : k = v
  · subst hk
    simp only [eq_self_iff_true, if_true, hsh₁, n₈, n₇, n₆, n₅, n₄, n₃, n₂, n₁]
  · simp only [if_neg hk, n₁₇, n₁₆, n₁₅, n₁₄, n₁₃, n₁₂, n₁₁, n₁₀, hsh₂,
      n₈, n₇, n₆, n₅, n₄, n₃, n₂, n₁]

/-- Successful generation of any expression leaves the named-value scope
exactly as it was (the loop-variable shadowing of `For` is undone by its
restore epilogue). -/
theorem cgExpr_nvOk : ∀ n, (∀ e, NvOkP (cgExpr n e)) ∧
    (∀ as, NvOkP (cgArgs n as)) := by
  intro n
  induction n with
  | zero => exact ⟨fun _ => nvOk_throw _, fun _ => nvOk_throw _⟩
  | succ n ih =>
    obtain ⟨ihE, ihA⟩ := ih
    constructor
    · intro e
      show NvOkP (cgExpr (n + 1) e)
      cases e with
      | NumberExpr v => exact nvOk_pure _
      | VariableExpr name =>
        refine nvOk_bind nvOk_get fun s => ?_
        cases s.named_values name with
        | none => exact nvOk_throw _
        | some v => exact nvOk_pure _
      | BinaryExpr op l r =>
        refine nvOk_bind (ihE l) fun lh => nvOk_bind (ihE r) fun rh => ?_
        refine nvOk_ite _ (nvOk_emitI _) ?_
        refine nvOk_ite _ (nvOk_emitI _) ?_
        refine nvOk_ite _ (nvOk_emitI _) ?_
        refine nvOk_ite _ (nvOk_bind (nvOk_emitI _) fun c =>
          nvOk_emitI _) (nvOk_throw _)
      | CallExpr callee args =>
        refine nvOk_bind (nvOk_get_proto callee) fun ofid => ?_
        cases ofid with
        | none => exact nvOk_throw _
        | some fid =>
          refine nvOk_bind nvOk_get fun s => ?_
          cases s.module.find? (fun g => g.id = fid) with
          | none => exact nvOk_throw _
          | some f =>
            refine nvOk_ite _ (nvOk_throw _) ?_
            exact nvOk_bind (ihA args) fun vs => nvOk_emitI _
      | If cond thenE elseE =>
        refine nvOk_bind nvOk_currentParent fun fn => ?_
        refine nvOk_bind nvOk_freshBlock fun thenB => ?_
        refine nvOk_bind nvOk_freshBlock fun elseB => ?_
        refine nvOk_bind nvOk_freshBlock fun mergeB => ?_
        refine nvOk_bind (ihE cond) fun cv => ?_
        refine nvOk_bind (nvOk_emitI _) fun cb => ?_
        refine nvOk_bind (nvOk_emitI _) fun _ => ?_
        refine nvOk_bind (nvOk_attachBlock _ _) fun _ => ?_
        refine nvOk_bind (nvOk_setInsert _) fun _ => ?_
        refine nvOk_bind (ihE thenE) fun _ => ?_
        refine nvOk_bind (nvOk_emitI _) fun _ => ?_
        refine nvOk_bind (nvOk_attachBlock _ _) fun _ => ?_
        refine nvOk_bind (nvOk_setInsert _) fun _ => ?_
        refine nvOk_bind (ihE elseE) fun _ => ?_
        refine nvOk_bind (nvOk_emitI _) fun _ => ?_
        refine nvOk_bind (nvOk_attachBlock _ _) fun _ => ?_
        refine nvOk_bind (nvOk_setInsert _) fun _ => ?_
        exact nvOk_emitI _
      | For v start stop step body =>
        cases step with
        | none =>
          exact nvOk_forShape v (cgExpr n start) (cgExpr n body)
            (pure (Val.constF 1)) (cgExpr n stop) (ihE start) (ihE body)
            (nvOk_pure _) (ihE stop) (fun b => .brI b)
        | some se =>
          exact nvOk_forShape v (cgExpr n start) (cgExpr n body)
            (cgExpr n se) (cgExpr n stop) (ihE start) (ihE body)
            (ihE se) (ihE stop) (fun b => .brI b)
    · intro as
      show NvOkP (cgArgs (n + 1) as)
      cases as with
      | nil => exact nvOk_pure _
      | cons a rest =>
        exact nvOk_bind (ihE a) fun va =>
          nvOk_bind (ihA rest) fun vs => nvOk_pure _

/-- Successful argument generation produces exactly one value per supplied
argument. -/
theorem cgArgs_len : ∀ n as s vs s', cgArgs n as s = (.ok vs, s') →
    vs.length = as.length := by
  intro n
  induction n with
  | zero =>
    intro as s vs s' h
    simp only [cgArgs, throwE_apply, Prod.mk.injEq] at h
    exact absurd h.1 (by simp)
  | succ n ih =>
    intro as s vs s' h
    cases as with
    | nil =>
      simp only [cgArgs, pure_apply, Prod.mk.injEq, Except.ok.injEq] at h
      rw [← h.1]
      rfl
    | cons a rest =>
      simp only [cgArgs] at h
      obtain ⟨v, s₁, h₁, h⟩ := bind_ok _ _ _ _ _ h
      obtain ⟨vs', s₂, h₂, h⟩ := bind_ok _ _ _ _ _ h
      simp only [pure_apply, Prod.mk.injEq, Except.ok.injEq] at h
      rw [← h.1]
      simp [ih rest _ _ _ h₂]

/-- Writing a key into the registry makes it readable. -/
theorem lookupA_setA (ps : List (String × Proto)) (k : String) (p : Proto) :
    lookupA (setA ps k p) k = some p := by
  induction ps with
  | nil => simp [setA, lookupA]
  | cons hd tl ih =>
    obtain ⟨k', p'⟩ := hd
    by_cases hk : k' = k
    · simp [setA, hk, lookupA]
    · simp only [setA, lookupA, if_neg hk]
      exact ih

/-- Registering a prototype under its own name keeps the registry
well-formed. -/
theorem protosWF_setA (ps : List (String × Proto)) (k : String) (p : Proto)
    (hw : protosWF ps) (hp : p.name = k) : protosWF (setA ps k p) := by
  induction ps with
  | nil =>
    intro kp hkp
    simp only [setA, List.mem_singleton] at hkp
    rw [hkp]
    exact hp
  | cons hd tl ih =>
    have hwtl : protosWF tl := fun kp hkp => hw kp (List.mem_cons_of_mem _ hkp)
    intro kp hkp
    simp only [setA] at hkp
    split at hkp
    · rcases List.mem_cons.mp hkp with h₁ | h₁
      · rw [h₁]; exact hp
      · exact hw kp (List.mem_cons_of_mem _ h₁)
    · rcases List.mem_cons.mp hkp with h₁ | h₁
      · rw [h₁]; exact hw hd (List.mem_cons_self _ _)
      · exact ih hwtl kp h₁

/-- What resolving a callee does to the context: nothing, or — when the
name is known only to the registry — appending its re-declaration to the
module. -/
theorem get_proto_cases (name : String) (st : CGState)
    (x : Except CGErr (Option Nat)) (st' : CGState)
    (h : get_proto name st = (x, st')) :
    st' = st ∨
      ∃ p, lookupA st.protos name = some p ∧ x = .ok (some st.counter) ∧
        st' = { st with
          counter := st.counter + 1
          module := st.module ++ [⟨st.counter, p.name, p.params, []⟩] } := by
  unfold get_proto at h
  split at h
  · cases h
    exact .inl rfl
  · split at h
    · rename_i p hlook
      simp only [bind_apply, cgProto, pure_apply] at h
      cases h
      exact .inr ⟨p, hlook, rfl, rfl⟩
    · cases h
      exact .inl rfl

/-- A failing `try` block transfers control to the handler at the throw
state. -/
theorem catchWith_error (x : CGM α) (hd : CGErr → CGM α) (s s' : CGState)
    (e : CGErr) (h : catchWith x hd s = (.error e, s')) :
    ∃ e₁ s₁, x s = (.error e₁, s₁) ∧ hd e₁ s₁ = (.error e, s') := by
  unfold catchWith at h
  rcases hx : x s with ⟨xr, s₁⟩
  rw [hx] at h
  cases xr with
  | ok a => simp at h
  | error e₁ => exact ⟨e₁, s₁, rfl, h⟩

/-- Resolution only answers `nullptr` when the registry has no entry. -/
theorem get_proto_none (name : String) (st st' : CGState)
    (h : get_proto name st = (.ok none, st')) :
    lookupA st.protos name = none := by
  unfold get_proto at h
  split at h
  · simp at h
  · split at h
    · simp only [bind_apply, cgProto, pure_apply, Prod.mk.injEq] at h
      exact absurd h.1 (by simp)
    · rename_i hnone
      exact hnone

/-- Anatomy of a failed `ast::Function::codegen`: the registry keeps the
just-registered prototype, the error state is the body's error state with
every function of the resolved id erased, the resolved id carried the
function's name, and module-name uniqueness survived up to the failure
point. -/
theorem cgFunction_error (n : Nat) (f : Func) (st : CGState) (e : CGErr)
    (st' : CGState) (h : cgFunction n f st = (.error e, st')) :
    ∃ (fid : Nat) (sB : CGState),
      sB.protos = setA st.protos f.proto.name f.proto ∧
      (protosWF st.protos → (fid, f.proto.name) ∈ pairsOf sB.module) ∧
      (protosWF st.protos → (namesOf st.module).Nodup →
        (namesOf sB.module).Nodup) ∧
      st' = { sB with module := sB.module.filter (fun g => g.id ≠ fid) } := by
  unfold cgFunction at h
  rcases bind_split _ _ _ _ _ h with ⟨e₀, hx, _⟩ | ⟨a₀, s₁, hx, h⟩
  · simp only [modE_apply, Prod.mk.injEq] at hx
    exact absurd hx.1 (by simp)
  cases hx
  rcases bind_split _ _ _ _ _ h with ⟨e₁, hg, _⟩ | ⟨ofid, s₂, hg, h⟩
  · obtain ⟨o, ho⟩ := (get_proto_ext _ _ _ _ hg).1
    exact absurd ho (by simp)
  have hExtG := (get_proto_ext _ _ _ _ hg).2.1
  cases ofid with
  | none =>
    have hlk := get_proto_none _ _ _ hg
    rw [show ({ st with
        protos := setA st.protos f.proto.name f.proto } : CGState).protos =
      setA st.protos f.proto.name f.proto from rfl, lookupA_setA] at hlk
    cases hlk
  | some fid =>
    rcases bind_split _ _ _ _ _ h with ⟨e₂, hp, _⟩ | ⟨fid', s₃, hp, h⟩
    · simp only [pure_apply, Prod.mk.injEq] at hp
      exact absurd hp.1 (by simp)
    cases hp
    rcases bind_split _ _ _ _ _ h with ⟨e₃, hb, _⟩ | ⟨blk, s₄, hb, h⟩
    · simp only [freshBlock, Prod.mk.injEq] at hb
      exact absurd hb.1 (by simp)
    cases hb
    rcases bind_split _ _ _ _ _ h with ⟨e₄, ha, _⟩ | ⟨a₄, s₅, ha, h⟩
    · simp only [attachBlock, modE_apply, Prod.mk.injEq] at ha
      exact absurd ha.1 (by simp)
    cases ha
    rcases bind_split _ _ _ _ _ h with ⟨e₅, hs, _⟩ | ⟨a₅, s₆, hs, h⟩
    · simp only [setInsert, modE_apply, Prod.mk.injEq] at hs
      exact absurd hs.1 (by simp)
    cases hs
    rcases bind_split _ _ _ _ _ h with ⟨e₆, hm, _⟩ | ⟨a₆, s₇, hm, h⟩
    · simp only [modE_apply, Prod.mk.injEq] at hm
      exact absurd hm.1 (by simp)
    cases hm
    obtain ⟨eI, sI, hin, h⟩ := catchWith_error _ _ _ _ _ h
    · simp only [bind_apply, modE_apply, throwE_apply] at h
      cases h
      rcases bind_split _ _ _ _ _ hin with ⟨eB, hB, _⟩ | ⟨ret, sR, hok, hrest⟩
      · have hExtB := (cgExpr_extP n).1 f.body _ _ _ hB
        refine ⟨fid, sI, ?_, ?_, ?_, rfl⟩
        · rw [hExtB.1]
          exact hExtG.1
        · intro hw
          have hw' : protosWF (setA st.protos f.proto.name f.proto) :=
            protosWF_setA _ _ _ hw rfl
          have hmem := get_proto_mem _ _ _ _ hg hw'
          obtain ⟨ds, hds⟩ := hExtB.2.1
          rw [hds]
          refine List.mem_append_left _ ?_
          show (fid, f.proto.name) ∈ pairsOf (List.map _ s₂.module)
          rw [pairsOf_attach]
          exact hmem
        · intro hw hnd
          have hw' : protosWF (setA st.protos f.proto.name f.proto) :=
            protosWF_setA _ _ _ hw rfl
          have hnd₂ : (namesOf s₂.module).Nodup := hExtG.2.2.1 hw' hnd
          have hnd₆ : (namesOf (List.map (fun g =>
              if g.id = fid then { g with blocks := g.blocks ++ [s₂.counter] }
              else g) s₂.module)).Nodup := by
            rw [namesOf_eq_pairs, pairsOf_attach, ← namesOf_eq_pairs]
            exact hnd₂
          refine hExtB.2.2.1 ?_ hnd₆
          show protosWF s₂.protos
          rw [hExtG.1]
          exact hw'
      · rcases bind_split _ _ _ _ _ hrest with ⟨eE, hE, _⟩ | ⟨vE, sE, hE, hP⟩
        · simp only [emitI, Prod.mk.injEq] at hE
          exact absurd hE.1 (by simp)
        · simp only [pure_apply, Prod.mk.injEq] at hP
          exact absurd hP.1 (by simp)

/-- The common prefix of `ast::CallExpr::codegen` once the callee has
resolved: everything reduces to the arity check over the resolved backend
function. -/
theorem cgCall_base (n : Nat) (c : String) (args : List Expr)
    (st st₁ : CGState) (fid : Nat) (bf : BFunc)
    (hres : get_proto c st = (.ok (some fid), st₁))
    (hbf : st₁.module.find? (fun g => g.id = fid) = some bf) :
    cgExpr (n + 1) (.CallExpr c args) st =
      (if bf.params.length ≠ args.length then throwE .arityMismatch
       else cgArgs n args >>= fun vs => emitI (.callI fid vs)) st₁ := by
  show (get_proto c >>= fun ofid =>
    match ofid with
    | none => throwE .unknownFunction
    | some fid => do
      let s ← getE
      match s.module.find? (fun g => g.id = fid) with
      | none => throwE .unknownFunction
      | some f =>
        if f.params.length ≠ args.length then throwE .arityMismatch
        else do
          let vs ← cgArgs n args
          emitI (.callI fid vs)) st = _
  simp only [bind_apply, hres, getE_apply, hbf]

/-! ## Concrete fixtures used by the claim theorems and witnesses -/

/-- `def bad(x) x + y` — its body references the unbound `y`. -/
def bad1 : Func :=
  ⟨⟨"bad", ["x"]⟩, .BinaryExpr "+" (.VariableExpr "x") (.VariableExpr "y")⟩

/-- `def bad(x) x` — the subsequent good definition of the same name. -/
def bad2 : Func := ⟨⟨"bad", ["x"]⟩, .VariableExpr "x"⟩

/-- A fresh unit whose session registry knows `foo(x)` only. -/
def stC10 : CGState := freshUnit [("foo", ⟨"foo", ["x"]⟩)]

/-- A fresh unit whose session registry knows `foo(x)` and `bar(x, y)`. -/
def stC4 : CGState := freshUnit [("foo", ⟨"foo", ["x"]⟩), ("bar", ⟨"bar", ["x", "y"]⟩)]

/-- A context inside function `f(i)`: `i` is bound to the first argument
and the builder sits in the entry block. -/
def stC5 : CGState :=
  ⟨[⟨0, "f", ["i"], [1]⟩], [],
    fun k => if k = "i" then some (.arg 0 0) else none, [], some 1, 2⟩

/-- `for i = 1, 10 in i`. -/
def forI : Expr :=
  .For "i" (.NumberExpr 1) (.NumberExpr 10) none (.VariableExpr "i")

/-- A unit whose module already declares `foo(x)`. -/
def stC8 : CGState := ⟨[⟨0, "foo", ["x"], []⟩], [], fun _ => none, [], none, 1⟩

/-! ## Claim C1 and C2 theorems -/

/-- C1: on maximal letter-started runs the lexer does keep the whole run as
the literal and does reclassify `def`, `extern`, `if`, `then`, `else` — but
`for` and `in` stay `TypeIdentifier`, although `Token.hpp` declares
`TypeFor`/`TypeIn` and `Parser::parse_for`/`parse_primary` require those
kinds. This theorem evaluates the lexer at the failing inputs. -/
theorem c1_for_in_lex_as_identifier :
    (lexToken "for".toList).1 = ⟨.TypeIdentifier, "for", 0⟩ ∧
    (lexToken "in".toList).1 = ⟨.TypeIdentifier, "in", 0⟩ ∧
    (lexToken "def".toList).1 = ⟨.TypeDef, "def", 0⟩ ∧
    (lexToken "extern".toList).1 = ⟨.TypeExtern, "extern", 0⟩ ∧
    (lexToken "if".toList).1 = ⟨.TypeIf, "if", 0⟩ ∧
    (lexToken "then".toList).1 = ⟨.TypeThen, "then", 0⟩ ∧
    (lexToken "else".toList).1 = ⟨.TypeElse, "else", 0⟩ ∧
    (lexToken "definition".toList).1 = ⟨.TypeIdentifier, "definition", 0⟩ := by
  decide

/-- C2: with the default precedence table, `"1 + 2 * 3"` parses to
`BinaryOp(+, 1, BinaryOp(*, 2, 3))` (multiplication binds tighter) and
`"1 - 2 - 3"` parses to `BinaryOp(-, BinaryOp(-, 1, 2), 3)`
(left-associativity at equal rank). -/
theorem c2_precedence_and_left_assoc :
    (parsePipeline "1 + 2 * 3").1 =
      .ok (.func ⟨⟨"__anon_expr", []⟩,
        .BinaryExpr "+" (.NumberExpr 1)
          (.BinaryExpr "*" (.NumberExpr 2) (.NumberExpr 3))⟩) ∧
    (parsePipeline "1 - 2 - 3").1 =
      .ok (.func ⟨⟨"__anon_expr", []⟩,
        .BinaryExpr "-" (.BinaryExpr "-" (.NumberExpr 1) (.NumberExpr 2))
          (.NumberExpr 3)⟩) := ⟨rfl, rfl⟩

/-! ## Claim C6 machinery — which parse errors retain their lookahead -/

/-- What the offending token looks like for each parse error: the condition
the raising check rejected. The two errors that carry no retained lookahead
(`fuel` is a model artifact; `missingRparParen` consumes the offending
token via `next()` before throwing) are unconstrained. -/
def offendingTok (e : PErr) (t : Token) : Prop :=
  match e with
  | .missingThen => t.type ≠ .TypeThen
  | .missingElse => t.type ≠ .TypeElse
  | .missingIn => t.type ≠ .TypeIn
  | .missingForVar => t.type ≠ .TypeIdentifier
  | .missingForEq => ¬(t.type = .TypeOperator ∧ t.literal = "=")
  | .missingForComma => t.type ≠ .TypeComma
  | .badCallSeparator => t.type ≠ .TypeComma ∧ t.type ≠ .TypeRpar
  | .badPrimary => t.type ≠ .TypeIdentifier ∧ t.type ≠ .TypeNumber ∧
      t.type ≠ .TypeLpar ∧ t.type ≠ .TypeIf ∧ t.type ≠ .TypeFor
  | .missingProtoName => t.type ≠ .TypeIdentifier
  | .missingProtoLpar => t.type ≠ .TypeLpar
  | .missingProtoRpar => t.type ≠ .TypeRpar
  | .missingRparParen => True
  | .fuel => True

/-- Peeking succeeds and leaves a live lookahead equal to `current`. -/
theorem peekM_shape (s : PState) (t : Token) (s₁ : PState)
    (h : peekM s = (.ok t, s₁)) :
    s₁.peeking = true ∧ s₁.current = t := by
  unfold peekM at h
  by_cases hp : s.peeking
  · rw [if_pos hp] at h
    cases h
    exact ⟨hp, rfl⟩
  · rw [if_neg hp] at h
    cases hts : s.toks with
    | nil => rw [hts] at h; cases h; exact ⟨rfl, rfl⟩
    | cons t₀ ts => rw [hts] at h; cases h; exact ⟨rfl, rfl⟩

/-- With a live lookahead, `peek` returns `current` and changes nothing. -/
theorem peekM_of_peeking (s : PState) (h : s.peeking = true) :
    peekM s = (.ok s.current, s) := by
  unfold peekM
  rw [if_pos h]

/-- With a live lookahead, `next` returns `current` and only clears the
flag. -/
theorem nextM_of_peeking (s : PState) (h : s.peeking = true) :
    nextM s = (.ok s.current, { s with peeking := false }) := by
  show (peekM >>= fun t => modE (fun s => { s with peeking := false }) >>=
    fun _ => pure t) s = _
  rw [bind_apply, peekM_of_peeking s h]
  rfl

/-- The property claim C6 ascribes to parsing: any raised error other than
the artifacts leaves the offending token as a live lookahead. -/
def RetainedP (m : ParseM α) : Prop :=
  ∀ s e s', m s = (.error e, s') → e ≠ .fuel → e ≠ .missingRparParen →
    s'.peeking = true ∧ offendingTok e s'.current

theorem retained_bind {x : ParseM α} {f : α → ParseM β} (hx : RetainedP x)
    (hf : ∀ a, RetainedP (f a)) : RetainedP (x >>= f) := by
  intro s e s' h hfu hrp
  rcases bind_split x f s s' _ h with ⟨e₁, hx₁, he⟩ | ⟨a, s₁, hx₁, h₂⟩
  · cases he
    exact hx _ _ _ hx₁ hfu hrp
  · exact hf a _ _ _ h₂ hfu hrp

theorem retained_pure (a : α) : RetainedP (pure a : ParseM α) := by
  intro s e s' h _ _
  exact absurd h (by simp)

theorem retained_throwFuel : RetainedP (throwE .fuel : ParseM α) := by
  intro s e s' h hfu _
  cases h
  exact absurd rfl hfu

theorem retained_throwRpar :
    RetainedP (throwE .missingRparParen : ParseM α) := by
  intro s e s' h _ hrp
  cases h
  exact absurd rfl hrp

theorem retained_ite (c : Prop) [Decidable c] {m₁ m₂ : ParseM α}
    (h₁ : RetainedP m₁) (h₂ : RetainedP m₂) : RetainedP (if c then m₁ else m₂) := by
  by_cases hc : c
  · simpa [hc] using h₁
  · simpa [hc] using h₂

/-- `peek` cannot fail. -/
theorem peekM_no_error (s : PState) (e : PErr) (s' : PState) :
    peekM s ≠ (.error e, s') := by
  intro h
  unfold peekM at h
  by_cases hp : s.peeking
  · rw [if_pos hp] at h
    exact absurd h (by simp)
  · rw [if_neg hp] at h
    cases hts : s.toks with
    | nil => rw [hts] at h; exact absurd h (by simp)
    | cons t₀ ts => rw [hts] at h; exact absurd h (by simp)

theorem retained_peek : RetainedP (peekM : ParseM Token) := by
  intro s e s' h _ _
  exact absurd h (peekM_no_error s e s')

theorem retained_next : RetainedP (nextM : ParseM Token) := by
  show RetainedP (peekM >>= fun t =>
    modE (fun s => { s with peeking := false }) >>= fun _ => pure t)
  refine retained_bind retained_peek fun t => ?_
  refine retained_bind ?_ fun _ => retained_pure _
  intro s e s' h _ _
  exact absurd h (by simp)

theorem retained_number : RetainedP parseNumberM :=
  retained_bind retained_next fun t => retained_pure _

/-- The peek-then-check pattern: it suffices to establish the retained
property of the continuation at states whose live lookahead is the peeked
token. -/
theorem retained_peek_bind (k : Token → ParseM α)
    (hk : ∀ t s, s.peeking = true → s.current = t →
      ∀ e s', k t s = (.error e, s') → e ≠ .fuel → e ≠ .missingRparParen →
        s'.peeking = true ∧ offendingTok e s'.current) :
    RetainedP (peekM >>= k) := by
  intro s e s' h hfu hrp
  rcases bind_split peekM k s s' _ h with ⟨e₁, hx₁, _⟩ | ⟨t, s₁, hx₁, h₂⟩
  · exact absurd hx₁ (peekM_no_error s e₁ s')
  · obtain ⟨hpk, hcur⟩ := peekM_shape s t s₁ hx₁
    exact hk t s₁ hpk hcur e s' h₂ hfu hrp

/-- A guarded check right after a peek: if the test fires the peeked token
is retained and offending, otherwise the rest of the procedure carries the
property. -/
theorem retained_guard {α : Type} (C : Token → Prop) [DecidablePred C]
    (e₀ : PErr) (rest : ParseM α) (hrest : RetainedP rest)
    (hoff : ∀ t, C t → offendingTok e₀ t) :
    ∀ t s, s.peeking = true → s.current = t →
      ∀ e s', (if C t then throwE e₀ else rest) s = (.error e, s') →
        e ≠ .fuel → e ≠ .missingRparParen →
        s'.peeking = true ∧ offendingTok e s'.current := by
  intro t s hpk hcur e s' h hfu hrp
  by_cases hc : C t
  · rw [if_pos hc] at h
    cases h
    exact ⟨hpk, by rw [hcur]; exact hoff t hc⟩
  · rw [if_neg hc] at h
    exact hrest _ _ _ h hfu hrp

/-- Every error of the expression-level parse procedures other than the
consumed-token `missingRparParen` (and the fuel artifact) is raised with the
offending token as the live lookahead. -/
theorem parseRetained : ∀ n,
    RetainedP (parsePrimary n) ∧ RetainedP (parseParenM n) ∧
    RetainedP (parseIdentM n) ∧ (∀ acc, RetainedP (parseArgsM n acc)) ∧
    RetainedP (parseIfM n) ∧ RetainedP (parseForM n) ∧
    RetainedP (parseExpression n) ∧
    (∀ p lhs, RetainedP (parseBinaryRhs n p lhs)) := by
  intro n
  induction n with
  | zero =>
    exact ⟨retained_throwFuel, retained_throwFuel, retained_throwFuel,
      fun _ => retained_throwFuel, retained_throwFuel,
      retained_throwFuel, retained_throwFuel,
      fun _ _ => retained_throwFuel⟩
  | succ n ih =>
    obtain ⟨ihPrim, ihParen, ihIdent, ihArgs, ihIf, ihFor, ihExpr, ihBin⟩ := ih
    refine ⟨?_, ?_, ?_, ?_, ?_, ?_, ?_, ?_⟩
    · show RetainedP (parsePrimary (n + 1))
      refine retained_peek_bind _ ?_
      intro t s hpk hcur e s' h hfu hrp
      cases htt : t.type
      case TypeIdentifier => rw [htt] at h; exact ihIdent _ _ _ h hfu hrp
      case TypeNumber => rw [htt] at h; exact retained_number _ _ _ h hfu hrp
      case TypeLpar => rw [htt] at h; exact ihParen _ _ _ h hfu hrp
      case TypeIf => rw [htt] at h; exact ihIf _ _ _ h hfu hrp
      case TypeFor => rw [htt] at h; exact ihFor _ _ _ h hfu hrp
      all_goals
        (rw [htt] at h; cases h;
          exact ⟨hpk, by rw [hcur]; simp [offendingTok, htt]⟩)
    · show RetainedP (parseParenM (n + 1))
      refine retained_bind retained_next fun _ => ?_
      refine retained_bind ihExpr fun eP => ?_
      refine retained_bind retained_next fun t => ?_
      exact retained_ite _ retained_throwRpar (retained_pure _)
    · show RetainedP (parseIdentM (n + 1))
      refine retained_bind retained_next fun t => ?_
      refine retained_bind retained_peek fun p => ?_
      refine retained_ite _ (retained_pure _) ?_
      refine retained_bind retained_next fun _ => ?_
      refine retained_bind retained_peek fun p₂ => ?_
      refine retained_ite _ ?_ ?_
      · exact retained_bind (retained_pure _) fun args =>
          retained_bind retained_next fun _ => retained_pure _
      · exact retained_bind (ihArgs _) fun args =>
          retained_bind retained_next fun _ => retained_pure _
    · intro acc
      show RetainedP (parseArgsM (n + 1) acc)
      refine retained_bind ihExpr fun eA => ?_
      refine retained_peek_bind _ ?_
      intro t s hpk hcur e s' h hfu hrp
      by_cases h₁ : t.type = .TypeRpar
      · rw [if_pos h₁] at h
        exact absurd h (by simp)
      · rw [if_neg h₁] at h
        by_cases h₂ : t.type = .TypeComma
        · rw [if_neg (fun hne => hne h₂)] at h
          exact (retained_bind retained_next fun _ => ihArgs _)
            _ _ _ h hfu hrp
        · rw [if_pos h₂] at h
          cases h
          exact ⟨hpk, by rw [hcur]; exact ⟨h₂, h₁⟩⟩
    · show RetainedP (parseIfM (n + 1))
      refine retained_bind retained_next fun _ => ?_
      refine retained_bind ihExpr fun cond => ?_
      refine retained_peek_bind _ ?_
      intro t s hpk hcur e s' h hfu hrp
      by_cases h₁ : t.type = .TypeThen
      · rw [if_neg (fun hne => hne h₁)] at h
        refine (retained_bind retained_next fun _ =>
          retained_bind ihExpr fun thenE =>
            retained_peek_bind _ ?_) _ _ _ h hfu hrp
        intro q sq hpkq hcurq e₂ s₂ h₂ hfu₂ hrp₂
        by_cases h₃ : q.type = .TypeElse
        · rw [if_neg (fun hne => hne h₃)] at h₂
          exact (retained_bind retained_next fun _ =>
            retained_bind ihExpr fun elseE => retained_pure _)
            _ _ _ h₂ hfu₂ hrp₂
        · rw [if_pos h₃] at h₂
          cases h₂
          exact ⟨hpkq, by rw [hcurq]; exact h₃⟩
      · rw [if_pos h₁] at h
        cases h
        exact ⟨hpk, by rw [hcur]; exact h₁⟩
    · show RetainedP (parseForM (n + 1))
      refine retained_bind retained_next fun _ => ?_
      refine retained_peek_bind _ ?_
      refine retained_guard _ .missingForVar _ ?_ fun t hc => hc
      refine retained_bind retained_next fun v => ?_
      refine retained_peek_bind _ ?_
      refine retained_guard _ .missingForEq _ ?_ fun t hc => hc
      refine retained_bind retained_next fun _ => ?_
      refine retained_bind ihExpr fun start => ?_
      refine retained_peek_bind _ ?_
      refine retained_guard _ .missingForComma _ ?_ fun t hc => hc
      refine retained_bind retained_next fun _ => ?_
      refine retained_bind ihExpr fun stop => ?_
      refine retained_bind retained_peek fun r₂ => ?_
      refine retained_ite _ ?_ ?_
      · refine retained_bind retained_next fun _ => ?_
        refine retained_bind ihExpr fun eS => ?_
        refine retained_bind (retained_pure _) fun step => ?_
        refine retained_peek_bind _ ?_
        refine retained_guard _ .missingIn _ ?_ fun t hc => hc
        exact retained_bind retained_next fun _ =>
          retained_bind ihExpr fun body => retained_pure _
      · refine retained_bind (retained_pure _) fun step => ?_
        refine retained_peek_bind _ ?_
        refine retained_guard _ .missingIn _ ?_ fun t hc => hc
        exact retained_bind retained_next fun _ =>
          retained_bind ihExpr fun body => retained_pure _
    · show RetainedP (parseExpression (n + 1))
      exact retained_bind ihPrim fun lhs => ihBin 0 lhs
    · intro p lhs
      show RetainedP (parseBinaryRhs (n + 1) p lhs)
      exact retained_bind retained_peek fun t =>
        retained_ite (getTokenPrecedence t.literal < p)
          (retained_pure _)
          (retained_bind retained_next fun opT =>
            retained_bind ihPrim fun rhs =>
              retained_bind retained_peek fun t₂ =>
                retained_ite
                  (getTokenPrecedence t.literal <
                    getTokenPrecedence t₂.literal)
                  (retained_bind (ihBin _ _) fun rhs₂ => ihBin _ _)
                  (retained_bind (retained_pure _) fun rhs₂ =>
                    ihBin _ _))

theorem retained_parseParams : ∀ n acc, RetainedP (parseParamsM n acc) := by
  intro n
  induction n with
  | zero => exact fun _ => retained_throwFuel
  | succ n ih =>
    intro acc
    show RetainedP (parseParamsM (n + 1) acc)
    refine retained_bind retained_peek fun p => ?_
    refine retained_ite _ ?_ (retained_pure _)
    exact retained_bind retained_next fun t => ih _

theorem retained_skipSemis : ∀ n, RetainedP (skipSemis n) := by
  intro n
  induction n with
  | zero => exact retained_throwFuel
  | succ n ih =>
    show RetainedP (skipSemis (n + 1))
    refine retained_bind retained_peek fun p => ?_
    refine retained_ite _ ?_ (retained_pure _)
    exact retained_bind retained_next fun _ => ih

theorem retained_parsePrototype (n : Nat) : RetainedP (parsePrototype n) := by
  refine retained_peek_bind _ ?_
  intro t s hpk hcur e s' h hfu hrp
  by_cases h₁ : t.type = .TypeIdentifier
  · rw [if_neg (fun hne => hne h₁)] at h
    refine (retained_bind retained_next fun tn =>
      retained_peek_bind _ ?_) _ _ _ h hfu hrp
    intro q sq hpkq hcurq e₂ s₂ h₂ hfu₂ hrp₂
    by_cases h₃ : q.type = .TypeLpar
    · rw [if_neg (fun hne => hne h₃)] at h₂
      refine (retained_bind retained_next fun _ =>
        retained_bind (retained_parseParams n []) fun args =>
          retained_peek_bind _ ?_) _ _ _ h₂ hfu₂ hrp₂
      intro r sr hpkr hcurr e₃ s₃ h₃' hfu₃ hrp₃
      by_cases h₄ : r.type = .TypeRpar
      · rw [if_neg (fun hne => hne h₄)] at h₃'
        exact (retained_bind retained_next fun _ => retained_pure _)
          _ _ _ h₃' hfu₃ hrp₃
      · rw [if_pos h₄] at h₃'
        cases h₃'
        exact ⟨hpkr, by rw [hcurr]; exact h₄⟩
    · rw [if_pos h₃] at h₂
      cases h₂
      exact ⟨hpkq, by rw [hcurq]; exact h₃⟩
  · rw [if_pos h₁] at h
    cases h
    exact ⟨hpk, by rw [hcur]; exact h₁⟩

theorem retained_parseDefinition (n : Nat) : RetainedP (parseDefinition n) :=
  retained_bind retained_next fun _ =>
    retained_bind (retained_parsePrototype n) fun p =>
      retained_bind (parseRetained n).2.2.2.2.2.2.1 fun eD =>
        retained_pure _

theorem retained_parseExternDecl (n : Nat) : RetainedP (parseExternDecl n) :=
  retained_bind retained_next fun _ =>
    retained_bind (retained_parsePrototype n) fun p => retained_pure _

theorem retained_parseTopLevelM (n : Nat) : RetainedP (parseTopLevelM n) :=
  retained_bind (parseRetained n).2.2.2.2.2.2.1 fun eT => retained_pure _

/-- Whole-unit form of the retained-lookahead property. -/
theorem retained_parseUnit : ∀ n, RetainedP (parseUnit n) := by
  intro n
  cases n with
  | zero => exact retained_throwFuel
  | succ n =>
    show RetainedP (parseUnit (n + 1))
    refine retained_bind (retained_skipSemis n) fun _ => ?_
    refine retained_bind retained_peek fun p => ?_
    cases p.type <;>
      first
        | exact retained_parseDefinition n
        | exact retained_parseExternDecl n
        | exact retained_parseTopLevelM n

/-! ## Claims C3, C9 — failed function generation -/

/-- C3: if generation of a `Function`'s body fails, the partially emitted
declaration is erased before the error propagates — no function of that
name (with or without a body) remains in the module — and the subsequent
`def bad(x) x` after a failed `def bad(x) x + y` generates successfully in
a fresh unit over the surviving registry, producing a defined `bad` with a
body. -/
theorem c3_failed_function_cleanup (n : Nat) (f : Func) (st : CGState)
    (e : CGErr) (st' : CGState) (hw : protosWF st.protos)
    (hnd : (namesOf st.module).Nodup)
    (h : cgFunction n f st = (.error e, st')) :
    (∀ bf ∈ st'.module, bf.name ≠ f.proto.name) ∧
    ((cgFunction 9 bad1 initSt).1 = .error .unboundVariable ∧
      (cgFunction 9 bad1 initSt).2.module = [] ∧
      (cgFunction 9 bad2 (freshUnit (cgFunction 9 bad1 initSt).2.protos)).1 =
        .ok (.funcV 0) ∧
      (cgFunction 9 bad2
        (freshUnit (cgFunction 9 bad1 initSt).2.protos)).2.module =
        [⟨0, "bad", ["x"], [1]⟩]) := by
  refine ⟨?_, rfl, rfl, rfl, rfl⟩
  obtain ⟨fid, sB, _, hmem, hnodup, hst⟩ := cgFunction_error n f st e st' h
  have hmem' := hmem hw
  have hnd' := hnodup hw hnd
  intro bf hbf hname
  rw [hst] at hbf
  have hbfm := List.mem_filter.mp hbf
  have hbfid : bf.id ≠ fid := by simpa using hbfm.2
  have hpair : (bf.id, bf.name) ∈ pairsOf sB.module :=
    List.mem_map_of_mem _ hbfm.1
  rw [hname] at hpair
  rw [namesOf_eq_pairs] at hnd'
  have heq := List.inj_on_of_nodup_map hnd' hpair hmem' rfl
  exact hbfid (congrArg Prod.fst heq)

/-- Witness for C3 at the spec's own example `def bad(x) x + y` from the
initial context. -/
theorem c3_failed_function_cleanup_witness :
    protosWF initSt.protos ∧ (namesOf initSt.module).Nodup ∧
    (∀ bf ∈ (cgFunction 9 bad1 initSt).2.module, bf.name ≠ "bad") := by
  have hwf : protosWF initSt.protos := fun kp hkp => absurd hkp (by simp [initSt, freshUnit])
  have hnd : (namesOf initSt.module).Nodup := List.nodup_nil
  refine ⟨hwf, hnd, ?_⟩
  exact (c3_failed_function_cleanup 9 bad1 initSt .unboundVariable
    ((cgFunction 9 bad1 initSt).2) hwf hnd rfl).1

/-- C9: a failed `Function` generation does not roll back the prototype
registration done at its start: the name still maps to the prototype, and
from any later fresh unit sharing that registry, `get_proto` re-declares it
as a body-less declaration and resolves the name. -/
theorem c9_failed_name_still_registered (n : Nat) (f : Func) (st : CGState)
    (e : CGErr) (st' : CGState) (h : cgFunction n f st = (.error e, st')) :
    lookupA st'.protos f.proto.name = some f.proto ∧
    (∀ stN : CGState, stN.protos = st'.protos → stN.module = [] →
      get_proto f.proto.name stN =
        (.ok (some stN.counter),
          { stN with
            counter := stN.counter + 1
            module := [⟨stN.counter, f.proto.name, f.proto.params, []⟩] })) := by
  obtain ⟨fid, sB, hpr, _, _, hst⟩ := cgFunction_error n f st e st' h
  have hl : lookupA st'.protos f.proto.name = some f.proto := by
    rw [hst]
    show lookupA sB.protos f.proto.name = some f.proto
    rw [hpr, lookupA_setA]
  refine ⟨hl, ?_⟩
  intro stN hps hm
  have hlook : lookupA stN.protos f.proto.name = some f.proto := by
    rw [hps]; exact hl
  show get_proto f.proto.name stN = _
  unfold get_proto
  rw [hm]
  simp only [List.find?_nil, hlook, bind_apply, cgProto, pure_apply]
  rw [hm]
  simp

/-- Witness for C9 at the same failed `def bad(x) x + y`. -/
theorem c9_failed_name_still_registered_witness :
    lookupA (cgFunction 9 bad1 initSt).2.protos "bad" =
      some (⟨"bad", ["x"]⟩ : Proto) ∧
    get_proto "bad" (freshUnit (cgFunction 9 bad1 initSt).2.protos) =
      (.ok (some 0),
        { freshUnit (cgFunction 9 bad1 initSt).2.protos with
          counter := 1
          module := [⟨0, "bad", ["x"], []⟩] }) := by
  have h := c9_failed_name_still_registered 9 bad1 initSt .unboundVariable
    ((cgFunction 9 bad1 initSt).2) rfl
  exact ⟨h.1, h.2 (freshUnit (cgFunction 9 bad1 initSt).2.protos) rfl rfl⟩

/-! ## Claim C5 — loop-variable shadow/restore -/

/-- C5: after a successful generation of a `ForLoop`, the scope binding for
the loop-variable name is exactly what it was before — restored if an
outer binding existed, absent if none did — and every other scope entry is
unchanged. -/
theorem c5_forLoop_scope_restored (n : Nat) (v : String) (start stop : Expr)
    (step : Option Expr) (body : Expr) (st : CGState) (r : Val)
    (st' : CGState)
    (h : cgExpr n (.For v start stop step body) st = (.ok r, st')) :
    (st.named_values v = none → st'.named_values v = none) ∧
    (∀ val, st.named_values v = some val → st'.named_values v = some val) ∧
    (∀ k, k ≠ v → st'.named_values k = st.named_values k) := by
  have hnv := (cgExpr_nvOk n).1 _ _ _ _ h
  exact ⟨fun h₀ => by rw [hnv]; exact h₀,
    fun val h₀ => by rw [hnv]; exact h₀,
    fun k _ => by rw [hnv]⟩

/-- Witness for C5: `for i = 1, 10 in i` generated inside `f(i)`, where the
outer `i` is bound to the first argument. -/
theorem c5_forLoop_scope_restored_witness :
    (cgExpr 9 forI stC5).1 = .ok (.constF 0) ∧
    stC5.named_values "i" = some (.arg 0 0) ∧
    (cgExpr 9 forI stC5).2.named_values "i" = some (.arg 0 0) := by
  refine ⟨rfl, rfl, ?_⟩
  exact (c5_forLoop_scope_restored 9 "i" (.NumberExpr 1) (.NumberExpr 10)
    none (.VariableExpr "i") stC5 (.constF 0) ((cgExpr 9 forI stC5).2)
    rfl).2.1 (.arg 0 0) rfl

/-! ## Claim C7 — binary-operator generation -/

/-- C7: generating a `BinaryOp` runs the left operand fully (from the
initial context), then the right operand (from the context the left one
produced), each only appending to the emission trace; then it dispatches on
the operator literal — `+`, `-`, `*` emit the matching arithmetic
instruction, `<` emits a comparison followed by the `1.0/0.0` coercion, and
any other literal fails with the unsupported-operator generation error at
the context reached after both operands. -/
theorem c7_binary_order_and_dispatch (n : Nat) (op : String) (l r : Expr)
    (st st₁ st₂ : CGState) (lv rv : Val)
    (hl : cgExpr n l st = (.ok lv, st₁))
    (hr : cgExpr n r st₁ = (.ok rv, st₂)) :
    (∃ tl, st₁.trace = st.trace ++ tl) ∧
    (∃ tr, st₂.trace = st₁.trace ++ tr) ∧
    (op = "+" → cgExpr (n + 1) (.BinaryExpr op l r) st =
      (.ok (.instr st₂.counter),
        { st₂ with
          counter := st₂.counter + 1
          trace := st₂.trace ++ [⟨st₂.counter, st₂.insertPt, .fadd lv rv⟩] })) ∧
    (op = "-" → cgExpr (n + 1) (.BinaryExpr op l r) st =
      (.ok (.instr st₂.counter),
        { st₂ with
          counter := st₂.counter + 1
          trace := st₂.trace ++ [⟨st₂.counter, st₂.insertPt, .fsub lv rv⟩] })) ∧
    (op = "*" → cgExpr (n + 1) (.BinaryExpr op l r) st =
      (.ok (.instr st₂.counter),
        { st₂ with
          counter := st₂.counter + 1
          trace := st₂.trace ++ [⟨st₂.counter, st₂.insertPt, .fmul lv rv⟩] })) ∧
    (op = "<" → cgExpr (n + 1) (.BinaryExpr op l r) st =
      (.ok (.instr (st₂.counter + 1)),
        { st₂ with
          counter := st₂.counter + 2
          trace := st₂.trace ++
            [⟨st₂.counter, st₂.insertPt, .fcmpULT lv rv⟩,
             ⟨st₂.counter + 1, st₂.insertPt, .uiToFP (.instr st₂.counter)⟩] })) ∧
    (op ≠ "+" → op ≠ "-" → op ≠ "*" → op ≠ "<" →
      cgExpr (n + 1) (.BinaryExpr op l r) st =
        (.error .unsupportedOperator, st₂)) := by
  have hbase : cgExpr (n + 1) (.BinaryExpr op l r) st =
      (if op = "+" then emitI (.fadd lv rv)
       else if op = "-" then emitI (.fsub lv rv)
       else if op = "*" then emitI (.fmul lv rv)
       else if op = "<" then
         (emitI (.fcmpULT lv rv) >>= fun c => emitI (.uiToFP c))
       else throwE .unsupportedOperator) st₂ := by
    show (cgExpr n l >>= fun lh => cgExpr n r >>= fun rh =>
      if op = "+" then emitI (.fadd lh rh)
      else if op = "-" then emitI (.fsub lh rh)
      else if op = "*" then emitI (.fmul lh rh)
      else if op = "<" then do
        let c ← emitI (.fcmpULT lh rh)
        emitI (.uiToFP c)
      else throwE .unsupportedOperator) st = _
    simp only [bind_apply, hl, hr]
  refine ⟨((cgExpr_extP n).1 l st _ st₁ hl).2.2.2,
    ((cgExpr_extP n).1 r st₁ _ st₂ hr).2.2.2, ?_, ?_, ?_, ?_, ?_⟩
  · intro heq; subst heq; rw [hbase]; rfl
  · intro heq; subst heq; rw [hbase]; rfl
  · intro heq; subst heq; rw [hbase]; rfl
  · intro heq; subst heq
    rw [hbase, if_neg (by decide), if_neg (by decide), if_neg (by decide),
      if_pos rfl]
    simp [bind_apply, emitI]
  · intro h₁ h₂ h₃ h₄
    rw [hbase, if_neg h₁, if_neg h₂, if_neg h₃, if_neg h₄]
    rfl

/-- Witness for C7: `1 + 1` and the two emitted-before relations at the
initial context. -/
theorem c7_binary_order_and_dispatch_witness :
    cgExpr 2 (.BinaryExpr "+" (.NumberExpr 1) (.NumberExpr 1)) initSt =
      (.ok (.instr 0),
        { initSt with
          counter := 1
          trace := [⟨0, none, .fadd (.constF 1) (.constF 1)⟩] }) ∧
    cgExpr 2 (.BinaryExpr "%" (.NumberExpr 1) (.NumberExpr 1)) initSt =
      (.error .unsupportedOperator, initSt) := by
  constructor
  · have h := (c7_binary_order_and_dispatch 1 "+" (.NumberExpr 1)
      (.NumberExpr 1) initSt initSt initSt (.constF 1) (.constF 1)
      rfl rfl).2.2.1 rfl
    exact h
  · have h := (c7_binary_order_and_dispatch 1 "%" (.NumberExpr 1)
      (.NumberExpr 1) initSt initSt initSt (.constF 1) (.constF 1)
      rfl rfl).2.2.2.2.2.2 (by decide) (by decide) (by decide) (by decide)
    exact h

/-! ## Claim C8 — re-declaration is idempotent -/

/-- C8: resolving a prototype name that already has a declaration in the
current unit returns that existing declaration unchanged — same handle,
same name, same parameters — without erroring, creating a second
declaration, or touching the context at all. -/
theorem c8_redeclare_returns_existing (name : String) (st : CGState)
    (bf : BFunc) (h : st.module.find? (fun g => g.name = name) = some bf) :
    get_proto name st = (.ok (some bf.id), st) ∧ bf.name = name ∧
      bf ∈ st.module := by
  refine ⟨?_, ?_, List.mem_of_find?_eq_some h⟩
  · unfold get_proto
    rw [h]
  · simpa using List.find?_some h

/-- Witness for C8: a module already declaring `foo(x)`. -/
theorem c8_redeclare_returns_existing_witness :
    stC8.module.find? (fun g => g.name = "foo") = some ⟨0, "foo", ["x"], []⟩ ∧
    get_proto "foo" stC8 = (.ok (some 0), stC8) := by
  refine ⟨rfl, ?_⟩
  exact (c8_redeclare_returns_existing "foo" stC8 ⟨0, "foo", ["x"], []⟩ rfl).1

/-! ## Claim C4 — call arity -/

/-- Counterexample to C4 as stated: in `foo(bar(1))` with `foo(x)` and
`bar(x, y)` registered, the callee `foo` resolves and the supplied argument
count (1) equals `foo`'s parameter count (1), yet generation of the call
fails with ArityMismatch (propagated from the nested `bar(1)`), refuting
"fails with ArityMismatch only if the counts differ". -/
theorem c4_arity_iff_counterexample :
    (cgExpr 5 (.CallExpr "foo" [.CallExpr "bar" [.NumberExpr 1]]) stC4).1 =
      .error .arityMismatch ∧
    (get_proto "foo" stC4).1 = .ok (some 0) ∧
    (get_proto "foo" stC4).2.module = [⟨0, "foo", ["x"], []⟩] ∧
    [Expr.CallExpr "bar" [Expr.NumberExpr 1]].length = List.length ["x"] :=
  ⟨rfl, rfl, rfl, rfl⟩

/-- C4 (amended): for a `Call` whose callee resolves, the node's own arity
check fails with ArityMismatch exactly when the supplied count differs from
the resolved parameter count; when the counts match, any failure is one
propagated from generating an argument expression, and a successful call
emits exactly one value per supplied argument — never a truncated or
padded list. -/
theorem c4_arity_check (n : Nat) (c : String) (args : List Expr)
    (st st₁ : CGState) (fid : Nat) (bf : BFunc)
    (hres : get_proto c st = (.ok (some fid), st₁))
    (hbf : st₁.module.find? (fun g => g.id = fid) = some bf) :
    (args.length ≠ bf.params.length →
      cgExpr (n + 1) (.CallExpr c args) st = (.error .arityMismatch, st₁)) ∧
    (args.length = bf.params.length →
      (∀ e s₂, cgArgs n args st₁ = (.error e, s₂) →
        cgExpr (n + 1) (.CallExpr c args) st = (.error e, s₂)) ∧
      (∀ vs s₂, cgArgs n args st₁ = (.ok vs, s₂) →
        vs.length = args.length ∧
        cgExpr (n + 1) (.CallExpr c args) st =
          (.ok (.instr s₂.counter),
            { s₂ with
              counter := s₂.counter + 1
              trace := s₂.trace ++
                [⟨s₂.counter, s₂.insertPt, .callI fid vs⟩] }))) := by
  have hbase := cgCall_base n c args st st₁ fid bf hres hbf
  constructor
  · intro hne
    rw [hbase, if_pos (Ne.symm hne)]
    rfl
  · intro heq
    have hbase' : cgExpr (n + 1) (.CallExpr c args) st =
        (cgArgs n args >>= fun vs => emitI (.callI fid vs)) st₁ := by
      rw [hbase, if_neg (fun hc => hc heq.symm)]
    constructor
    · intro e s₂ ha
      rw [hbase']
      simp only [bind_apply, ha]
    · intro vs s₂ ha
      refine ⟨cgArgs_len n args st₁ vs s₂ ha, ?_⟩
      rw [hbase']
      simp only [bind_apply, ha, emitI]

/-- Witness for C4 (amended) at `foo(1, 2)` against the registered
`foo(x)`. -/
theorem c4_arity_check_witness :
    get_proto "foo" stC10 = (.ok (some 0), (get_proto "foo" stC10).2) ∧
    (cgExpr 3 (.CallExpr "foo" [.NumberExpr 1, .NumberExpr 2]) stC10).1 =
      .error .arityMismatch := by
  refine ⟨rfl, ?_⟩
  have h := (c4_arity_check 2 "foo" [.NumberExpr 1, .NumberExpr 2] stC10
    ((get_proto "foo" stC10).2) 0 ⟨0, "foo", ["x"], []⟩ rfl rfl).1 (by decide)
  rw [h]

/-! ## Claim C10 — arity failure and module state -/

/-- Counterexample to C10 as stated: generating `foo(1, 2)` against a fresh
module with `foo(x)` known only to the registry fails the arity check, yet
the module is not unchanged — resolving the callee re-declared `foo` into
it. -/
theorem c10_module_unchanged_counterexample :
    (cgExpr 3 (.CallExpr "foo" [.NumberExpr 1, .NumberExpr 2]) stC10).1 =
      .error .arityMismatch ∧
    stC10.module = [] ∧
    (cgExpr 3 (.CallExpr "foo" [.NumberExpr 1, .NumberExpr 2])
      stC10).2.module = [⟨0, "foo", ["x"], []⟩] := ⟨rfl, rfl, rfl⟩

/-- C10 (amended): the arity check runs before any argument expression is
generated, so an arity-failing `Call` emits no instructions at all — the
trace is untouched — and the only module change it can contribute is the
re-declaration of the callee performed while resolving it. -/
theorem c10_arity_before_arguments (n : Nat) (c : String) (args : List Expr)
    (st st₁ : CGState) (fid : Nat) (bf : BFunc)
    (hres : get_proto c st = (.ok (some fid), st₁))
    (hbf : st₁.module.find? (fun g => g.id = fid) = some bf)
    (hne : args.length ≠ bf.params.length) :
    cgExpr (n + 1) (.CallExpr c args) st = (.error .arityMismatch, st₁) ∧
    st₁.trace = st.trace ∧
    (st₁.module = st.module ∨
      ∃ p, lookupA st.protos c = some p ∧
        st₁.module = st.module ++ [⟨st.counter, p.name, p.params, []⟩]) := by
  have hbase := cgCall_base n c args st st₁ fid bf hres hbf
  refine ⟨?_, ?_, ?_⟩
  · rw [hbase, if_pos (Ne.symm hne)]
    rfl
  · rcases get_proto_cases c st _ st₁ hres with h₀ | ⟨p, _, _, h₀⟩ <;>
      rw [h₀]
  · rcases get_proto_cases c st _ st₁ hres with h₀ | ⟨p, hp, _, h₀⟩
    · exact .inl (by rw [h₀])
    · exact .inr ⟨p, hp, by rw [h₀]⟩

/-- Witness for C10 (amended) at `foo(1, 2)`: the error lands at the
resolution state, whose trace is still empty. -/
theorem c10_arity_before_arguments_witness :
    cgExpr 3 (.CallExpr "foo" [.NumberExpr 1, .NumberExpr 2]) stC10 =
      (.error .arityMismatch, (get_proto "foo" stC10).2) ∧
    (get_proto "foo" stC10).2.trace = stC10.trace := by
  have h := c10_arity_before_arguments 2 "foo" [.NumberExpr 1, .NumberExpr 2]
    stC10 ((get_proto "foo" stC10).2) 0 ⟨0, "foo", ["x"], []⟩ rfl rfl
    (by decide)
  exact ⟨h.1, h.2.1⟩

/-! ## Claim C6 — offending-token retention -/

/-- Counterexample to C6 as stated: parsing `"(1 2"` raises the
missing-`)` error, whose check consumed the offending `2` via `next()`
(it survives only in the parser's internal `current` field with `peeking`
cleared), so a caller inspecting `peek()`/`next()` sees the following token
(here EOF), not the token that caused the failure. -/
theorem c6_missing_rpar_lookahead_counterexample :
    (parseUnit 16 (pst0 (lexAll 8 "(1 2".toList))).1 =
      .error .missingRparParen ∧
    (parseUnit 16 (pst0 (lexAll 8 "(1 2".toList))).2.current =
      ⟨.TypeNumber, "2", 2⟩ ∧
    (parseUnit 16 (pst0 (lexAll 8 "(1 2".toList))).2.peeking = false ∧
    (peekM (parseUnit 16 (pst0 (lexAll 8 "(1 2".toList))).2).1 =
      .ok eofToken ∧
    (nextM (parseUnit 16 (pst0 (lexAll 8 "(1 2".toList))).2).1 =
      .ok eofToken := ⟨rfl, rfl, rfl, rfl, rfl⟩

/-- C6 (amended): whenever parsing a unit raises a parse error from a
peek-guarded required-token check — every such check except the
closing-parenthesis check of a parenthesized expression, which consumes
the offending token via `next()` before throwing — the retained lookahead
after the error is the offending token: `peek()`/`next()` both return the
very token the failed check rejected, without consuming further input. -/
theorem c6_error_retains_offending_token (n : Nat) (s : PState) (e : PErr)
    (s' : PState) (h : parseUnit n s = (.error e, s')) (hfu : e ≠ .fuel)
    (hrp : e ≠ .missingRparParen) :
    s'.peeking = true ∧ peekM s' = (.ok s'.current, s') ∧
    nextM s' = (.ok s'.current, { s' with peeking := false }) ∧
    offendingTok e s'.current := by
  obtain ⟨h₁, h₂⟩ := retained_parseUnit n s e s' h hfu hrp
  exact ⟨h₁, peekM_of_peeking s' h₁, nextM_of_peeking s' h₁, h₂⟩

/-- Witness for C6 (amended): `"if 1 2"` fails its `then` check and the
caller's peek returns exactly the offending `2`. -/
theorem c6_error_retains_offending_token_witness :
    (parseUnit 16 (pst0 (lexAll 8 "if 1 2".toList))).1 =
      .error .missingThen ∧
    peekM (parseUnit 16 (pst0 (lexAll 8 "if 1 2".toList))).2 =
      (.ok (⟨.TypeNumber, "2", 2⟩ : Token),
        (parseUnit 16 (pst0 (lexAll 8 "if 1 2".toList))).2) := by
  refine ⟨rfl, ?_⟩
  have h := c6_error_retains_offending_token 16
    (pst0 (lexAll 8 "if 1 2".toList)) .missingThen
    ((parseUnit 16 (pst0 (lexAll 8 "if 1 2".toList))).2) rfl
    (by decide) (by decide)
  exact h.2.1

end Kaleidoscope
